import Mathlib

/-!
Verification of soundcloud-api-go: rate limiter, upstream client and URL validation.

A shallow embedding of `internal/middleware/rate_limiter.go`,
`internal/scclient/client.go`, `internal/utils/utils.go`,
`internal/handlers/handlers.go` and `internal/config/config.go`.

Conventions of the embedding:

* a `time.Time` is an integer number of nanoseconds on the clock that
  `time.Now()` reads, a `time.Duration` is an integer number of nanoseconds;
  `a.After(b)` is `b < a` and `a.Add(d)` is `a + d`;
* a Go `int` is an `Int`; the only arithmetic the limiter does on it is
  `Count++` below `max`, which cannot overflow;
* `time.Now()` is an explicit argument of every operation that reads the clock;
* a Go `map[string]T` is an association list with at most one entry per key.
-/

namespace SoundCloud

/-! ## pkg/types -/

/-- The struct `types.RateInfo`: the per-client counter and the end of its window. -/
structure RateInfo where
  Count : Int
  ResetTime : Int
  deriving DecidableEq, Repr

/-- The struct `types.RateLimitResponse`. `Details` holds the three values the code stores
under `limit`, `window_seconds` and `reset_time`; the last two are kept as the duration and
time that the code hands to `Seconds()` and `Format(time.RFC3339)`. -/
structure RateLimitResponse where
  Error : String
  limit : Int
  window : Int
  reset_time : Int
  deriving DecidableEq, Repr

/-! ## Go maps as association lists -/

/-- The table `map[string]*types.RateInfo`. -/
abbrev Clients := List (String × RateInfo)

/-- The map read `m[k]` with the comma-ok form. -/
def Clients.get (m : Clients) (k : String) : Option RateInfo :=
  match m with
  | [] => none
  | (k', v) :: rest => if k' = k then some v else Clients.get rest k

/-- The builtin `delete(m, k)`. -/
def Clients.delete (m : Clients) (k : String) : Clients :=
  match m with
  | [] => []
  | (k', v) :: rest => if k' = k then Clients.delete rest k else (k', v) :: Clients.delete rest k

/-- The map write `m[k] = v`, also the effect of writing through the pointer stored under `k`. -/
def Clients.set (m : Clients) (k : String) (v : RateInfo) : Clients :=
  match m with
  | [] => [(k, v)]
  | (k', v') :: rest => if k' = k then (k, v) :: rest else (k', v') :: Clients.set rest k v

/-- A Go map holds at most one entry per key. -/
def Clients.WF (m : Clients) : Prop := (m.map Prod.fst).Nodup

instance (m : Clients) : Decidable m.WF := by
  unfold Clients.WF; infer_instance

/-! ## internal/middleware/rate_limiter.go -/

/-- The struct `RateLimiter` without its mutex and channels. -/
structure RateLimiter where
  clients : Clients
  max : Int
  window : Int
  cleanup : Int
  deriving DecidableEq, Repr

/-- A product or sum of `time.Duration` values, which are 64-bit integers that wrap around. -/
def wrapInt64 (x : Int) : Int :=
  (x + 9223372036854775808) % 18446744073709551616 - 9223372036854775808

/-- The constructor `NewRateLimiter`, without the goroutine it starts. The goroutine runs `gc`,
whose ticker is built from `cleanup` (and panics when `cleanup` is not positive); the
embedding has no ticker, a sweep is an event of a run at a time of its own. -/
def NewRateLimiter (max : Int) (window : Int) : RateLimiter :=
  { clients := [], max := max, window := window, cleanup := wrapInt64 (window * 2) }

/-- The body of the `range` loop of `gc` for one entry `k, v`. -/
def gcVisit (now : Int) (cur : Clients) (kv : String × RateInfo) : Clients :=
  if kv.2.ResetTime < now then cur.delete kv.1 else cur

/-- The ticker branch of `RateLimiter.gc`: one pass over the table at time `now`. -/
def gcSweep (r : RateLimiter) (now : Int) : RateLimiter :=
  { r with clients := r.clients.foldl (gcVisit now) r.clients }

/-- The method `RateLimiter.IsRateLimited` called at time `now`: the two results and the
limiter afterwards. -/
def IsRateLimited (r : RateLimiter) (now : Int) (clientID : String) :
    (Bool × Option RateLimitResponse) × RateLimiter :=
  match r.clients.get clientID with
  | some info =>
    if info.ResetTime < now then
      ((false, none),
        { r with clients := r.clients.set clientID { Count := 1, ResetTime := now + r.window } })
    else if info.Count ≥ r.max then
      ((true, some { Error := "Rate limit exceeded", limit := r.max, window := r.window,
                     reset_time := info.ResetTime }), r)
    else
      ((false, none),
        { r with clients := r.clients.set clientID { info with Count := info.Count + 1 } })
  | none =>
    ((false, none),
      { r with clients := r.clients.set clientID { Count := 1, ResetTime := now + r.window } })

/-- A run of `IsRateLimited` calls for one key at the given times: for each call whether it
was limited and the limiter after it. -/
def callsFor (r : RateLimiter) (clientID : String) : List Int → List (Bool × RateLimiter)
  | [] => []
  | now :: rest =>
    let out := IsRateLimited r now clientID
    (out.1.1, out.2) :: callsFor out.2 clientID rest

/-- One step of the limiter's life: a request of a client or a tick of the sweep. -/
inductive Event where
  | request (now : Int) (clientID : String)
  | tick (now : Int)
  deriving DecidableEq, Repr

/-- The limiter after one event. -/
def step (r : RateLimiter) : Event → RateLimiter
  | .request now clientID => (IsRateLimited r now clientID).2
  | .tick now => gcSweep r now

/-- The limiter after a sequence of events. -/
def run (r : RateLimiter) (es : List Event) : RateLimiter :=
  es.foldl step r

/-- The counts stored in the table lie between 1 and `max`. -/
def CountsBounded (r : RateLimiter) : Prop :=
  ∀ k v, r.clients.get k = some v → 1 ≤ v.Count ∧ v.Count ≤ r.max

/-! ## internal/config/config.go -/

/-- The process environment: the variables that are set, with their values. -/
abbrev Environ := List (String × String)

/-- The call `os.LookupEnv(key)`. -/
def LookupEnv (env : Environ) (key : String) : Option String :=
  match env with
  | [] => none
  | (k, v) :: rest => if k = key then some v else LookupEnv rest key

/-- The call `os.Getenv(key)`: the value, or the empty string for an unset variable. -/
def Getenv (env : Environ) (key : String) : String :=
  (LookupEnv env key).getD ""

/-- The value of a string of decimal digits, most significant first. -/
def digitsValue (ds : List Char) : Nat :=
  ds.foldl (fun acc c => 10 * acc + (c.toNat - 48)) 0

/-- The library function `strconv.Atoi` on a 64-bit platform: an optional sign, then one or
more decimal digits, the value within the range of `int`; `none` is a non-nil error. -/
def Atoi (s : String) : Option Int :=
  let signed : Bool × List Char :=
    match s.data with
    | '-' :: t => (true, t)
    | '+' :: t => (false, t)
    | cs => (false, cs)
  if signed.2 = [] then none
  else if signed.2.all Char.isDigit then
    let v : Int := if signed.1 then -(digitsValue signed.2 : Int) else (digitsValue signed.2 : Int)
    if -9223372036854775808 ≤ v ∧ v ≤ 9223372036854775807 then some v else none
  else none

/-- The function `getEnvAsInt`. -/
def getEnvAsInt (env : Environ) (key : String) (defaultValue : Int) : Int :=
  let value := Getenv env key
  if value ≠ "" then
    match Atoi value with
    | some intValue => intValue
    | none => defaultValue
  else defaultValue

/-- The field `RateLimitRequests` that `Load` computes. -/
def loadRateLimitRequests (env : Environ) : Int :=
  getEnvAsInt env "RATE_LIMIT_REQUESTS" 100

/-! ## Go strings

A Go `string` is a Lean `String`; `len` is the length in bytes of its UTF-8 encoding. The
library functions of package `strings` that the program calls are written out on the list of
characters. -/

/-- The predicate `unicode.IsSpace`, which `strings.TrimSpace` uses. -/
def isSpace (c : Char) : Bool :=
  [0x09, 0x0A, 0x0B, 0x0C, 0x0D, 0x20, 0x85, 0xA0, 0x1680, 0x2028, 0x2029, 0x202F, 0x205F,
    0x3000].contains c.toNat || (0x2000 ≤ c.toNat && c.toNat ≤ 0x200A)

/-- Drop from both ends of a list the elements that satisfy `p`. -/
def trimBoth (p : Char → Bool) (cs : List Char) : List Char :=
  ((cs.dropWhile p).reverse.dropWhile p).reverse

/-- The library function `strings.TrimSpace`. -/
def TrimSpace (s : String) : String := ⟨trimBoth isSpace s.data⟩

/-- The library function `strings.Trim(s, cutset)`. -/
def Trim (s cutset : String) : String := ⟨trimBoth (fun c => cutset.data.contains c) s.data⟩

/-- The library function `strings.HasPrefix(s, pre)`. -/
def HasPrefix (s pre : String) : Bool := pre.data.isPrefixOf s.data

/-- Cut a list of characters at every occurrence of `sep`; an empty list gives one empty
piece. -/
def splitChars (sep : Char) : List Char → List (List Char)
  | [] => [[]]
  | c :: cs =>
    if c = sep then [] :: splitChars sep cs
    else
      match splitChars sep cs with
      | [] => [[c]]
      | piece :: pieces => (c :: piece) :: pieces

/-- The library function `strings.Split(s, sep)` for a separator of one character. -/
def Split (s : String) (sep : Char) : List String := (splitChars sep s.data).map String.mk

/-- The library function `strings.ToUpper`, as far as a comparison of its result with a word
of the letters A to Z can tell: the letters a to z are mapped to A to Z, and no other
character is mapped to any of the letters of `BLOCK`. -/
def ToUpper (s : String) : String := ⟨s.data.map Char.toUpper⟩

/-- The library function `strconv.Itoa`. -/
def Itoa (n : Int) : String := toString n

/-! ## internal/utils/utils.go -/

/-- The function `ValidateSoundCloudURL`. The element `parts[2]` is read only when there are at
least four parts. -/
def ValidateSoundCloudURL (raw : String) (maxLen : Int) : Bool × String :=
  if TrimSpace raw = "" then (false, "URL is required")
  else if (raw.utf8ByteSize : Int) > maxLen then
    (false, "URL too long (max " ++ Itoa maxLen ++ " characters)")
  else if !HasPrefix raw "https://soundcloud.com/" then (false, "Invalid SoundCloud URL format")
  else
    let parts := Split (Trim raw "/") '/'
    if parts.length < 4 || parts.getD 2 "" = "" then
      (false, "Invalid SoundCloud track URL format")
    else (true, "")

/-- The function `IfString`. -/
def IfString (s otherwise : String) : String :=
  if TrimSpace s = "" then otherwise else s

/-! ## Values of type `interface{}` -/

/-- A Go value of type `interface{}` as `encoding/json` builds it, and as the result maps of
the client hold it. Numbers are only passed along, never computed with. -/
inductive Value where
  | null
  | bool (b : Bool)
  | number (n : Int)
  | string (s : String)
  | array (xs : List Value)
  | object (fields : List (String × Value))

/-- The type `map[string]interface{}`. -/
abbrev Object := List (String × Value)

/-- The map read `v, ok := m[key]`. -/
def Object.lookup (m : Object) (key : String) : Option Value :=
  match m with
  | [] => none
  | (k, v) :: rest => if k = key then some v else Object.lookup rest key

/-- The map read `m[key]`: `nil` for a key that is absent, also on a nil map. -/
def Object.index (m : Object) (key : String) : Value := (m.lookup key).getD .null

/-- The type assertion `s, _ := v.(string)`. -/
def Value.asString : Value → String
  | .string s => s
  | _ => ""

/-- The type assertion `m, _ := v.(map[string]interface{})`; a nil map reads like an empty one. -/
def Value.asObject : Value → Object
  | .object fields => fields
  | _ => []

/-- The type assertion `xs, _ := v.([]interface{})`; a nil slice ranges like an empty one. -/
def Value.asArray : Value → List Value
  | .array xs => xs
  | _ => []

/-- The comparison `v == nil`. -/
def Value.isNil : Value → Bool
  | .null => true
  | _ => false

/-! ## net/http, net/url and encoding/json as the client sees them -/

/-- The type `url.Values`. -/
abbrev Values := List (String × List String)

/-- The method `Values.Set`. -/
def Values.Set (v : Values) (key value : String) : Values :=
  match v with
  | [] => [(key, [value])]
  | (k, vs) :: rest =>
    if k = key then (key, [value]) :: rest else (k, vs) :: Values.Set rest key value

/-- The type `http.Header` with one value per key. -/
abbrev Header := List (String × String)

/-- The method `Header.Set`. -/
def Header.Set (h : Header) (key value : String) : Header :=
  match h with
  | [] => [(key, value)]
  | (k, v) :: rest => if k = key then (key, value) :: rest else (k, v) :: Header.Set rest key value

/-- The struct `url.URL`. -/
structure URL where
  Scheme : String
  Opaque : String
  Host : String
  Path : String
  RawQuery : String
  Fragment : String
  deriving DecidableEq, Repr

/-- An `http.Request` as the client builds it: the method and URL given to `http.NewRequest`,
the query string assigned to `req.URL.RawQuery` afterwards if one is, and the headers. -/
structure Request where
  Method : String
  Target : String
  RawQuery : Option String
  Headers : Header
  deriving DecidableEq, Repr

/-- An `http.Response` as the client reads it: the status code, which `net/http` never leaves
negative, and the bytes that `io.ReadAll` gets from the body. -/
structure Response where
  StatusCode : Nat
  Body : String
  deriving DecidableEq, Repr

/-- The library functions the client calls, as parameters of the embedding. -/
structure Library where
  /-- The call `json.Unmarshal(body, &m)` on a nil `map[string]interface{}`: an error, or the
  map afterwards, which stays nil (`none`) for the document `null`. -/
  Unmarshal : String → Except String (Option Object)
  /-- The function `url.Parse`. -/
  Parse : String → Except String URL
  /-- The method `URL.Query`. -/
  Query : URL → Values
  /-- The method `Values.Encode`. -/
  Encode : Values → String
  /-- The method `URL.String`. -/
  Render : URL → String

/-- The upstream service behind `httpClient.Do`: the outcome of a request, which may depend on
the requests sent before it. An error carries the text of `err.Error()`. -/
structure Upstream where
  Do : List Request → Request → Except String Response

/-! ## internal/scclient/client.go -/

/-- The struct `SoundCloudClient`; its `httpClient` is the `Upstream`. -/
structure SoundCloudClient where
  authToken : String
  clientID : String
  deriving DecidableEq, Repr

/-- The headers that `doRequest` sets. -/
def withHeaders (s : SoundCloudClient) (req : Request) : Request :=
  let h1 := Header.Set req.Headers "User-Agent" "Go-http-client/1.1"
  let h2 := Header.Set h1 "Accept" "application/json"
  { req with
    Headers :=
      if s.authToken ≠ "" then Header.Set h2 "Authorization" ("OAuth " ++ s.authToken) else h2 }

/-- The method `doRequest`: the outcome and the requests sent so far. -/
def doRequest (s : SoundCloudClient) (up : Upstream) (sent : List Request) (req : Request) :
    Except String Response × List Request :=
  (up.Do sent (withHeaders s req), sent ++ [withHeaders s req])

/-- The method `ResolveTrack`: the two results (an error, or the decoded map, which may be nil)
and the requests sent so far. -/
def ResolveTrack (s : SoundCloudClient) (lib : Library) (up : Upstream) (sent : List Request)
    (trackURL : String) : Except String (Option Object) × List Request :=
  let q := Values.Set (Values.Set [] "url" trackURL) "client_id" s.clientID
  let req : Request :=
    { Method := "GET", Target := "https://api-v2.soundcloud.com/resolve",
      RawQuery := some (lib.Encode q), Headers := [] }
  match doRequest s up sent req with
  | (.error err, sent1) => (.error err, sent1)
  | (.ok resp, sent1) =>
    if resp.StatusCode ≠ 200 then
      (.error ("resolve failed: " ++ Itoa resp.StatusCode), sent1)
    else
      match lib.Unmarshal resp.Body with
      | .error err => (.error err, sent1)
      | .ok parsed => (.ok parsed, sent1)

/-- The test of `GetStreamURL` on the `policy` field. -/
def isBlocked (trackInfo : Object) : Bool :=
  match trackInfo.lookup "policy" with
  | some (.string policyStr) => ToUpper policyStr = "BLOCK"
  | _ => false

/-- The loop of `GetStreamURL` over the transcodings: the value of `progressiveURL` after it. -/
def findProgressiveURL : List Value → String
  | [] => ""
  | (.object tm) :: rest =>
    if (((Object.index tm "format").asObject).index "protocol").asString = "progressive" then
      if (Object.index tm "url").asString ≠ "" then (Object.index tm "url").asString
      else findProgressiveURL rest
    else findProgressiveURL rest
  | _ :: rest => findProgressiveURL rest

/-- The result map of a failure. -/
def failure (message code : String) : Object :=
  [("error", .string message), ("stream_url", .null), ("error_code", .string code)]

/-- The part of `GetStreamURL` after the stream request has been answered with `resp`. -/
def readStream (lib : Library) (timestamp : String) (trackInfo : Object) (resp : Response) :
    Object :=
  if resp.StatusCode ≠ 200 then
    failure ("Stream API error: " ++ Itoa resp.StatusCode) ("API_ERROR_" ++ Itoa resp.StatusCode)
  else
    match lib.Unmarshal resp.Body with
    | .error _ => failure "Internal server error" "INTERNAL_ERROR"
    | .ok streamResp =>
      let finalURL := ((streamResp.getD []).index "url").asString
      if finalURL = "" then failure "No stream URL in response" "NO_STREAM_URL"
      else
        let trackInfoTitle := (trackInfo.index "title").asString
        let username := ((trackInfo.index "user").asObject.index "username").asString
        [("stream_url", .string finalURL),
         ("error", .null),
         ("error_code", .null),
         ("track_info", .object
           [("title", .string (IfString trackInfoTitle "Unknown")),
            ("artist", .string (IfString username "Unknown")),
            ("duration", trackInfo.index "duration"),
            ("permalink_url", trackInfo.index "permalink_url"),
            ("artwork_url", trackInfo.index "artwork_url"),
            ("genre", trackInfo.index "genre"),
            ("release_date", trackInfo.index "release_date")]),
         ("cache_info", .object
           [("timestamp", .string timestamp), ("ttl_seconds", .number 3600)])]

/-- The part of `GetStreamURL` from `url.Parse(progressiveURL)` on: the result map and the
requests sent so far. -/
def fetchStream (s : SoundCloudClient) (lib : Library) (up : Upstream) (timestamp : String)
    (trackInfo : Object) (progressiveURL : String) (sent : List Request) :
    Object × List Request :=
  match lib.Parse progressiveURL with
  | .error _ => (failure "Internal error building stream URL" "INTERNAL_ERROR", sent)
  | .ok u =>
    let q := Values.Set (lib.Query u) "client_id" s.clientID
    let u1 : URL := { u with RawQuery := lib.Encode q }
    let req : Request :=
      { Method := "GET", Target := lib.Render u1, RawQuery := none, Headers := [] }
    match doRequest s up sent req with
    | (.error err, sent1) => (failure ("Network error: " ++ err) "NETWORK_ERROR", sent1)
    | (.ok resp, sent1) => (readStream lib timestamp trackInfo resp, sent1)

/-- The method `GetStreamURL`, with the text of `time.Now().UTC().Format(time.RFC3339)` as the
argument `timestamp`: the result map, the Go error (`none` is nil) and the requests sent. -/
def GetStreamURL (s : SoundCloudClient) (lib : Library) (up : Upstream) (timestamp : String)
    (trackURL : String) : (Object × Option String) × List Request :=
  match ResolveTrack s lib up [] trackURL with
  | (.ok (some trackInfo), sent) =>
    if isBlocked trackInfo then
      ((failure "Track is blocked in your region" "GEO_BLOCKED", none), sent)
    else
      let media := (trackInfo.index "media").asObject
      let transcodings := (media.index "transcodings").asArray
      let progressiveURL := findProgressiveURL transcodings
      if progressiveURL = "" then
        ((failure "Progressive stream not available for this track" "NO_PROGRESSIVE_STREAM", none),
          sent)
      else
        let out := fetchStream s lib up timestamp trackInfo progressiveURL sent
        ((out.1, none), out.2)
  | (_, sent) => ((failure "Track not found or unavailable" "TRACK_NOT_FOUND", none), sent)

/-! ## internal/handlers/handlers.go -/

/-- The fields of `config.Config` that `processStreamRequest` reads. -/
structure Config where
  MaxTrackURLLen : Int
  deriving DecidableEq, Repr

/-- The struct `Handlers`, without its logger and limiter. -/
structure Handlers where
  Cfg : Config
  ScClient : SoundCloudClient
  deriving DecidableEq, Repr

/-- What `utils.WriteJSON` writes: the status code and the value that is encoded. -/
structure Written where
  status : Nat
  body : Object

/-- The method `processStreamRequest`, without its logging: the response written and the
upstream requests sent. -/
def processStreamRequest (h : Handlers) (lib : Library) (up : Upstream) (timestamp : String)
    (trackURL : String) : Written × List Request :=
  let trackURL := TrimSpace trackURL
  let valid := ValidateSoundCloudURL trackURL h.Cfg.MaxTrackURLLen
  if !valid.1 then
    ({ status := 400, body := [("error", .string valid.2), ("error_code", .string "INVALID_URL")] },
      [])
  else
    let out := GetStreamURL h.ScClient lib up timestamp trackURL
    match out.1.2 with
    | some _ =>
      ({ status := 500,
         body := [("error", .string "Internal server error"),
                  ("error_code", .string "INTERNAL_ERROR")] }, out.2)
    | none =>
      if !(out.1.1.index "stream_url").isNil && (out.1.1.index "error").isNil then
        ({ status := 200, body := out.1.1 }, out.2)
      else
        ({ status := 400, body := out.1.1 }, out.2)

/-- Equality of two strings up to the case of the letters a to z. -/
def equalIgnoringCase (a b : String) : Bool :=
  a.data.map Char.toLower = b.data.map Char.toLower

/-- The test `format.protocol == "progressive"` on one element of the transcodings. -/
def isProgressive : Value → Bool
  | .object tm =>
    (((Object.index tm "format").asObject).index "protocol").asString = "progressive"
  | _ => false

/-- The `url` field of one element of the transcodings, as the loop reads it. -/
def transcodingURL : Value → String
  | .object tm => (Object.index tm "url").asString
  | _ => ""

/-- The list `media.transcodings` of a catalog entry, as `GetStreamURL` reads it: empty when
either field is missing or of another type. -/
def transcodingsOf (trackInfo : Object) : List Value :=
  (((trackInfo.index "media").asObject).index "transcodings").asArray

/-- The decimal digits of a natural number. -/
def decimalDigits (n : Nat) : String := String.mk (Nat.toDigits 10 n)

/-- The error codes that do not depend on a status code. -/
def fixedErrorCodes : List String :=
  ["TRACK_NOT_FOUND", "GEO_BLOCKED", "NO_PROGRESSIVE_STREAM", "INTERNAL_ERROR", "NETWORK_ERROR",
    "NO_STREAM_URL"]

/-- The success shape of a result map. -/
def IsSuccess (result : Object) : Prop :=
  (∃ u : String, u ≠ "" ∧ result.index "stream_url" = .string u) ∧
    result.index "error" = .null ∧ result.index "error_code" = .null

/-- The failure shape of a result map, with `fetched` the status code of the answer to the
stream request when there was one. -/
def IsFailure (result : Object) (fetched : Option Nat) : Prop :=
  result.index "stream_url" = .null ∧
    (∃ msg : String, msg ≠ "" ∧ result.index "error" = .string msg) ∧
    ∃ code : String, result.index "error_code" = .string code ∧
      (code ∈ fixedErrorCodes ∨
        ∃ status : Nat, fetched = some status ∧ status ≠ 200 ∧
          code = "API_ERROR_" ++ decimalDigits status)

/-- The status code of the answer to the second request, when two requests were sent and the
second was answered. -/
def fetchedStatus (up : Upstream) (sent : List Request) : Option Nat :=
  match sent with
  | [first, second] =>
    match up.Do [first] second with
    | .ok resp => some resp.StatusCode
    | .error _ => none
  | _ => none

/-! ## Sample inputs -/

/-- A client with a token and an application identifier. -/
def sampleClient : SoundCloudClient := { authToken := "tok", clientID := "cid" }

/-- A transcoding with the given protocol and url. -/
def sampleTranscoding (protocol url : String) : Value :=
  .object [("url", .string url), ("format", .object [("protocol", .string protocol)])]

/-- A catalog entry with the given policy and transcodings. -/
def sampleTrack (policy : String) (transcodings : List Value) : Object :=
  [("title", .string "Song"), ("policy", .string policy),
   ("media", .object [("transcodings", .array transcodings)])]

/-- A stand-in for the library: documents are decoded by looking their text up in a table,
a URL that starts with a colon does not parse, and a URL is rendered as its path, a question
mark and its query. -/
def stubLibrary (docs : List (String × Option Object)) : Library :=
  { Unmarshal := fun body =>
      match docs.lookup body with
      | some doc => .ok doc
      | none => .error "invalid character",
    Parse := fun raw =>
      if HasPrefix raw ":" then .error "missing protocol scheme"
      else
        .ok { Scheme := "", Opaque := "", Host := "", Path := raw, RawQuery := "", Fragment := "" },
    Query := fun _ => [],
    Encode := fun q =>
      String.intercalate "&" (q.map fun kv => kv.1 ++ "=" ++ String.intercalate "," kv.2),
    Render := fun u => u.Path ++ "?" ++ u.RawQuery }

/-- A stand-in for the upstream service: the n-th request gets the n-th answer of a list. -/
def stubUpstream (answers : List (Except String Response)) : Upstream :=
  { Do := fun sent _ => answers.getD sent.length (.error "connection refused") }

/-- Handlers with the default maximum URL length. -/
def sampleHandlers : Handlers := { Cfg := { MaxTrackURLLen := 500 }, ScClient := sampleClient }


/-- A limiter of two requests per ten time units, with an empty table. -/
def sampleLimiter : RateLimiter := NewRateLimiter 2 10

/-- A limiter whose client `a` has used up its two requests in a window that ends at 10,
and whose client `b` has a window that ends at 30. -/
def sampleExhausted : RateLimiter :=
  { clients := [("a", { Count := 2, ResetTime := 10 }), ("b", { Count := 1, ResetTime := 30 })],
    max := 2, window := 10, cleanup := 20 }

/-- An environment that sets the request limit to zero. -/
def sampleZeroEnv : Environ := [("RATE_LIMIT_REQUESTS", "0")]

/-- The track URL used in the examples. -/
def sampleURL : String := "https://soundcloud.com/artist/track"

/-- A progressive transcoding without a url, then a progressive transcoding with one. -/
def sampleTwoProgressive : List Value :=
  [sampleTranscoding "progressive" "", sampleTranscoding "progressive" "https://media/second"]

/-- The library stand-in that decodes the text `TRACK` as the given entry and the text
`STREAM` as a stream document. -/
def libraryFor (entry : Object) : Library :=
  stubLibrary [("TRACK", some entry), ("STREAM", some [("url", .string "https://cdn/audio.mp3")])]

/-- An upstream that answers the resolve with the text `TRACK` and the stream request with the
text `STREAM`. -/
def upstreamOK : Upstream := stubUpstream [.ok ⟨200, "TRACK"⟩, .ok ⟨200, "STREAM"⟩]

/-- An upstream that answers the resolve with the text `TRACK` and the stream request with a
body that is not JSON. -/
def upstreamGarbled : Upstream := stubUpstream [.ok ⟨200, "TRACK"⟩, .ok ⟨200, "<html>"⟩]

/-- A blocked entry, with the policy spelled in mixed case and a progressive transcoding. -/
def blockedTrack : Object :=
  sampleTrack "Block" [sampleTranscoding "progressive" "https://media/one"]

/-- An entry with only an `hls` transcoding. -/
def hlsTrack : Object := sampleTrack "ALLOW" [sampleTranscoding "hls" "https://media/one"]

/-- An entry whose only progressive transcoding has no url. -/
def emptyURLTrack : Object := sampleTrack "ALLOW" [sampleTranscoding "progressive" ""]

/-- An entry whose first progressive transcoding has no url and whose second has one. -/
def twoProgressiveTrack : Object := sampleTrack "ALLOW" sampleTwoProgressive

/-- An entry whose progressive transcoding has a url that does not parse. -/
def unparsableTrack : Object := sampleTrack "ALLOW" [sampleTranscoding "progressive" ":bad"]

/-- An entry with one playable progressive transcoding. -/
def playableTrack : Object :=
  sampleTrack "ALLOW" [sampleTranscoding "hls" "https://media/zero",
    sampleTranscoding "progressive" "https://media/one"]

/-! ## internal/config/config.go: LoadEnvFile

The environment is a finite map from names to values. `os.Setenv` refuses a name or a value
that the system cannot hold, and a `bufio.Scanner` gives up at a line that does not fit its
buffer; `LoadEnvFile` discards the first error and returns the second. -/

/-- What `os.Open(path)` and the reads of the file give: no such file, another error, or the
text of the file. -/
inductive EnvFile where
  | missing
  | unreadable (err : String)
  | content (text : String)
  deriving DecidableEq, Repr

/-- The NUL character. -/
def nul : Char := Char.ofNat 0

/-- The constant `bufio.MaxScanTokenSize`, the largest buffer of a `bufio.Scanner`. -/
def maxScanTokenSize : Nat := 64 * 1024

/-- The function `dropCR` of package `bufio`: a line without its final carriage return. -/
def dropCR (line : List Char) : List Char :=
  if line.getLast? = some '\r' then line.dropLast else line

/-- The pieces that the split function `ScanLines` finds in the text: the text is cut at every
newline, and the final piece counts only when it is not empty. -/
def rawLines (text : String) : List (List Char) :=
  let pieces := splitChars '\n' text.data
  if pieces.getLast? = some [] then pieces.dropLast else pieces

/-- The tokens that the loop `for scanner.Scan()` gets, and `scanner.Err()` after it. A piece
is delivered, without its final carriage return, when it is shorter than the largest buffer of
the scanner, newline not counted; at the first piece that is not, the scan stops with
`bufio.ErrTooLong`. -/
def scanLines (text : String) : List String × Option String :=
  let pieces := rawLines text
  let read := pieces.takeWhile fun piece =>
    decide ((String.mk piece).utf8ByteSize < maxScanTokenSize)
  (read.map fun piece => String.mk (dropCR piece),
    if read.length < pieces.length then some "bufio.Scanner: token too long" else none)

/-- The library function `strings.TrimPrefix(s, pre)`. -/
def TrimPrefix (s pre : String) : String :=
  if HasPrefix s pre then ⟨s.data.drop pre.data.length⟩ else s

/-- The library function `strings.Cut(s, sep)` for a separator of one character: the text
before the first separator, the text after it, and whether there is one. -/
def Cut (s : String) (sep : Char) : String × String × Bool :=
  match s.data.span (fun c => c != sep) with
  | (before, _ :: after) => (⟨before⟩, ⟨after⟩, true)
  | (_, []) => (s, "", false)

/-- The cutset of `strings.Trim(value, ...)` in `LoadEnvFile`: the double and the single
quote. -/
def quoteCutset : String := String.mk [Char.ofNat 34, Char.ofNat 39]

/-- The map write behind `os.Setenv`. -/
def storeEnv (env : Environ) (key value : String) : Environ :=
  match env with
  | [] => [(key, value)]
  | (k, v) :: rest => if k = key then (key, value) :: rest else (k, v) :: storeEnv rest key value

/-- The test of `syscall.Setenv` on its arguments: the name is not empty and holds neither
`=` nor NUL, and the value holds no NUL. -/
def settable (key value : String) : Bool :=
  key ≠ "" && !key.data.contains '=' && !key.data.contains nul && !value.data.contains nul

/-- The call `os.Setenv(key, value)`: the environment afterwards and the error (`none` is
nil). A name or value that fails the test is refused with `EINVAL` and nothing is stored. -/
def Setenv (env : Environ) (key value : String) : Environ × Option String :=
  if settable key value then (storeEnv env key value, none)
  else (env, some "setenv: invalid argument")

/-- The part of the loop body of `LoadEnvFile` that reads one line: the key and the value it
defines, or `none` where the loop says `continue`. -/
def parseEnvLine (text : String) : Option (String × String) :=
  let line := TrimSpace text
  if line = "" || HasPrefix line "#" then none
  else
    let line := if HasPrefix line "export " then TrimSpace (TrimPrefix line "export ") else line
    let cut := Cut line '='
    if !cut.2.2 then none
    else
      let key := TrimSpace cut.1
      let value := Trim (TrimSpace cut.2.1) quoteCutset
      if key = "" then none else some (key, value)

/-- The loop body of `LoadEnvFile` for one line; the error of `os.Setenv` is discarded. -/
def loadEnvLine (env : Environ) (text : String) : Environ :=
  match parseEnvLine text with
  | none => env
  | some (key, value) =>
    if (LookupEnv env key).isNone then (Setenv env key value).1 else env

/-- The function `LoadEnvFile`: the environment afterwards and the error returned (`none` is
nil). -/
def LoadEnvFile (file : EnvFile) (env : Environ) : Environ × Option String :=
  match file with
  | .missing => (env, none)
  | .unreadable err => (env, some err)
  | .content text => ((scanLines text).1.foldl loadEnvLine env, (scanLines text).2)

/-- The value that the first line defining `key` gives it, if a line defines it. -/
def firstDefinition (lines : List String) (key : String) : Option String :=
  match lines with
  | [] => none
  | line :: rest =>
    match parseEnvLine line with
    | some (k, v) => if k = key then some v else firstDefinition rest key
    | none => firstDefinition rest key

/-! ## The .env file in the words of the specification -/

/-- The lines of a text: what stands between its newlines. -/
def textLines (text : String) : List String :=
  (splitChars '\n' text.data).map String.mk

/-- A line is a `KEY=VALUE` line that defines `key` as `value`: trimmed of white space it is
no `#` comment; its body, which is the trimmed line, or what follows a leading `export `
trimmed again, reads `k=v` with no `=` in `k`; `key` is `k` trimmed of white space and is not
empty; `value` is `v` trimmed of white space and then of leading and trailing quotes. -/
def DefinesOn (line key value : String) : Prop :=
  ∃ body k v : String,
    HasPrefix (TrimSpace line) "#" = false ∧
    ((HasPrefix (TrimSpace line) "export " = false ∧ body = TrimSpace line) ∨
      ∃ rest : String, TrimSpace line = "export " ++ rest ∧ body = TrimSpace rest) ∧
    body = k ++ "=" ++ v ∧ '=' ∉ k.data ∧
    key = TrimSpace k ∧ key ≠ "" ∧ value = Trim (TrimSpace v) quoteCutset

/-- The file of the test `TestLoadEnvFile_LoadsValuesAndKeepsExistingEnv`. -/
def sampleEnvText : String :=
  "\n# comment\nAUTH_TOKEN=token-123\nCLIENT_ID=" ++ String.mk [Char.ofNat 39] ++ "client-456"
    ++ String.mk [Char.ofNat 39]
    ++ "\nexport RATE_LIMIT_REQUESTS=250\nEXISTING_KEY=from-file\nINVALID_LINE\n"

/-- The environment of that test, with one more variable that is set to the empty string. -/
def sampleEnviron : Environ := [("EXISTING_KEY", "from-env"), ("AUTH_TOKEN_OLD", "")]

/-- A value with a NUL character in it. -/
def nulValue : String := "x" ++ String.mk [nul] ++ "y"

/-- A file of one line that gives `A` a value with a NUL character in it. -/
def nulText : String := "A=" ++ nulValue

/-- A line of as many bytes as the largest buffer of the scanner. -/
def longLine : String := String.mk (List.replicate maxScanTokenSize 'x')

/-- A file whose first line does not fit the buffer of the scanner and whose second line
defines `A`. -/
def longLineText : String := longLine ++ "\nA=1"

/-! ## Runs of the limiter and the calls they let through -/

/-- The time at which an event happens. -/
def Event.time : Event → Int
  | .request now _ => now
  | .tick now => now

/-- The times of the calls of client `clientID` that a run lets through (`limited = false`),
in order. -/
def admittedTimes (r : RateLimiter) (clientID : String) : List Event → List Int
  | [] => []
  | .request now c :: rest =>
    let out := IsRateLimited r now c
    if c = clientID ∧ out.1.1 = false then now :: admittedTimes out.2 clientID rest
    else admittedTimes out.2 clientID rest
  | .tick now :: rest => admittedTimes (gcSweep r now) clientID rest

/-- The events of a run come at non-decreasing times. -/
def NonDecreasing (es : List Event) : Prop :=
  (es.map Event.time).Pairwise (fun a b => a ≤ b)

instance (es : List Event) : Decidable (NonDecreasing es) := by
  unfold NonDecreasing; infer_instance

/-- The number of the times in `ts` that lie in the closed interval from `a` to `b`. -/
def countWithin (ts : List Int) (a b : Int) : Nat :=
  ts.countP fun t => decide (a ≤ t ∧ t ≤ b)

/-- The number of the times in `ts` that are not before `lo`. -/
def countFrom (ts : List Int) (lo : Int) : Nat :=
  ts.countP fun t => decide (lo ≤ t)

/-- The invariant behind the burst bound, for one client with table entry `entry`, the times
`A` of its calls let through so far and the time `T` of the last event: every interval no
longer than the window holds at most `2 * max` of the times; no time is after `T`; without an
entry, at most `max` of the times are in the last window length and all are before `T`; with
an entry, the count is at most `max`, at most `Count` of the times are in the current window,
at most `Count + max` in the current window and the window length before it, the current
window has begun, and no time is after its end. -/
def BurstInv (max w : Int) (entry : Option RateInfo) (A : List Int) (T : Int) : Prop :=
  (∀ a b, b - a ≤ w → (countWithin A a b : Int) ≤ 2 * max) ∧
  (∀ x ∈ A, x ≤ T) ∧
  match entry with
  | none => (countFrom A (T - w) : Int) ≤ max ∧ ∀ x ∈ A, x < T
  | some info =>
    info.Count ≤ max ∧ (countFrom A (info.ResetTime - w) : Int) ≤ info.Count ∧
    (countFrom A (info.ResetTime - 2 * w) : Int) ≤ info.Count + max ∧
    info.ResetTime - w ≤ T ∧ ∀ x ∈ A, x ≤ info.ResetTime

/-- A run at a window boundary: two requests per window of 10, client `a` calls at 0, 10, 10
(the third is refused), then at 11, 11, 11 (the last is refused), with a sweep in between and
a call of client `b`. -/
def sampleBurst : List Event :=
  [.request 0 "a", .request 10 "a", .request 10 "a", .request 10 "b", .tick 11,
   .request 11 "a", .request 11 "a", .request 11 "a"]

/-! ## Theorems: the client table -/

theorem Clients.get_set_self (m : Clients) (k : String) (v : RateInfo) :
    (m.set k v).get k = some v := by
  induction m with
  | nil => simp [Clients.set, Clients.get]
  | cons kv rest ih =>
    obtain ⟨k', v'⟩ := kv
    by_cases h : k' = k
    · simp [Clients.set, Clients.get, h]
    · simp [Clients.set, Clients.get, h, ih]

theorem Clients.get_set_ne (m : Clients) (k k' : String) (v : RateInfo) (hne : k' ≠ k) :
    (m.set k v).get k' = m.get k' := by
  induction m with
  | nil => simp [Clients.set, Clients.get, Ne.symm hne]
  | cons kv rest ih =>
    obtain ⟨k0, v0⟩ := kv
    by_cases h : k0 = k
    · subst h
      simp [Clients.set, Clients.get, Ne.symm hne]
    · by_cases h2 : k0 = k'
      · subst h2
        simp [Clients.set, Clients.get, h]
      · simp [Clients.set, Clients.get, h, h2, ih]

theorem Clients.get_delete_self (m : Clients) (k : String) : (m.delete k).get k = none := by
  induction m with
  | nil => simp [Clients.delete, Clients.get]
  | cons kv rest ih =>
    obtain ⟨k', v'⟩ := kv
    by_cases h : k' = k
    · simp [Clients.delete, h, ih]
    · simp [Clients.delete, Clients.get, h, ih]

theorem Clients.get_delete_ne (m : Clients) (k k' : String) (hne : k' ≠ k) :
    (m.delete k).get k' = m.get k' := by
  induction m with
  | nil => simp [Clients.delete, Clients.get]
  | cons kv rest ih =>
    obtain ⟨k0, v0⟩ := kv
    by_cases h : k0 = k
    · subst h
      simp [Clients.delete, Clients.get, Ne.symm hne, ih]
    · by_cases h2 : k0 = k'
      · subst h2
        simp [Clients.delete, Clients.get, h]
      · simp [Clients.delete, Clients.get, h, h2, ih]

theorem Clients.mem_of_get (m : Clients) (k : String) (v : RateInfo) (h : m.get k = some v) :
    (k, v) ∈ m := by
  induction m with
  | nil => simp [Clients.get] at h
  | cons kv rest ih =>
    obtain ⟨k', v'⟩ := kv
    by_cases hk : k' = k
    · simp [Clients.get, hk] at h
      simp [hk, h]
    · simp [Clients.get, hk] at h
      exact List.mem_cons_of_mem _ (ih h)

theorem Clients.get_of_mem (m : Clients) (hwf : m.WF) (k : String) (v : RateInfo)
    (h : (k, v) ∈ m) : m.get k = some v := by
  induction m with
  | nil => simp at h
  | cons kv rest ih =>
    obtain ⟨k', v'⟩ := kv
    have hwf2 : k' ∉ rest.map Prod.fst ∧ Clients.WF rest := by
      simpa [Clients.WF] using hwf
    rcases List.mem_cons.mp h with heq | hin
    · cases heq
      simp [Clients.get]
    · have hk : k' ≠ k := by
        intro e
        subst e
        exact hwf2.1 (List.mem_map.mpr ⟨(k', v), hin, rfl⟩)
      simp [Clients.get, hk, ih hwf2.2 hin]

/-- The loop of `gc` leaves a key alone when none of the visited entries carries it with an
expired window. -/
theorem get_foldl_gcVisit_keep (now : Int) (l : List (String × RateInfo)) (cur : Clients)
    (k : String) (h : ∀ v, (k, v) ∈ l → ¬ v.ResetTime < now) :
    (l.foldl (gcVisit now) cur).get k = cur.get k := by
  induction l generalizing cur with
  | nil => rfl
  | cons kv rest ih =>
    obtain ⟨k0, v0⟩ := kv
    rw [List.foldl_cons, ih _ (fun v hv => h v (List.mem_cons_of_mem _ hv))]
    by_cases hexp : v0.ResetTime < now
    · have hk : k ≠ k0 := by
        intro e
        subst e
        exact h v0 (List.mem_cons_self _ _) hexp
      simp only [gcVisit, hexp, if_true]
      exact Clients.get_delete_ne _ _ _ hk
    · simp only [gcVisit, hexp, if_false]

/-- The loop of `gc` only removes: a key it leaves in the table has the value it had. -/
theorem get_foldl_gcVisit_sub (now : Int) (l : List (String × RateInfo)) (cur : Clients)
    (k : String) (v : RateInfo) (h : (l.foldl (gcVisit now) cur).get k = some v) :
    cur.get k = some v := by
  induction l generalizing cur with
  | nil => exact h
  | cons kv rest ih =>
    obtain ⟨k0, v0⟩ := kv
    rw [List.foldl_cons] at h
    have h1 := ih _ h
    by_cases hexp : v0.ResetTime < now
    · simp only [gcVisit, hexp, if_true] at h1
      by_cases hk : k = k0
      · subst hk
        rw [Clients.get_delete_self] at h1
        exact absurd h1 (by simp)
      · rwa [Clients.get_delete_ne _ _ _ hk] at h1
    · simpa only [gcVisit, hexp, if_false] using h1

/-- The loop of `gc` removes a key once it has visited an entry that carries it with an
expired window. -/
theorem get_foldl_gcVisit_drop (now : Int) (l : List (String × RateInfo)) (cur : Clients)
    (k : String) (v : RateInfo) (hmem : (k, v) ∈ l) (hexp : v.ResetTime < now) :
    (l.foldl (gcVisit now) cur).get k = none := by
  induction l generalizing cur with
  | nil => simp at hmem
  | cons kv rest ih =>
    rw [List.foldl_cons]
    rcases List.mem_cons.mp hmem with heq | hin
    · subst heq
      cases hres : (rest.foldl (gcVisit now) (gcVisit now cur (k, v))).get k with
      | none => rfl
      | some w =>
        have h1 := get_foldl_gcVisit_sub now rest _ k w hres
        simp only [gcVisit, hexp, if_true] at h1
        rw [Clients.get_delete_self] at h1
        exact absurd h1 (by simp)
    · exact ih _ hin

/-! ## Theorems: the rate limiter -/

/-- A call leaves `max` and `window` as they were. -/
theorem IsRateLimited_config (r : RateLimiter) (now : Int) (k : String) :
    (IsRateLimited r now k).2.max = r.max ∧ (IsRateLimited r now k).2.window = r.window := by
  unfold IsRateLimited
  cases r.clients.get k with
  | none => exact ⟨rfl, rfl⟩
  | some info =>
    by_cases h1 : info.ResetTime < now
    · simp [h1]
    · by_cases h2 : info.Count ≥ r.max
      · simp [h1, h2]
      · simp [h1, h2]

/-- A call inside the window of an entry that is below the maximum is let through and
raises the count by one. -/
theorem IsRateLimited_below (r : RateLimiter) (now : Int) (k : String) (c R : Int)
    (hget : r.clients.get k = some { Count := c, ResetTime := R }) (hnow : now ≤ R)
    (hc : c < r.max) :
    (IsRateLimited r now k).1.1 = false ∧
      (IsRateLimited r now k).2.clients.get k = some { Count := c + 1, ResetTime := R } := by
  have h1 : ¬ R < now := not_lt.mpr hnow
  have h2 : ¬ c ≥ r.max := not_le.mpr hc
  unfold IsRateLimited
  rw [hget]
  simp only [h1, h2, if_false]
  exact ⟨trivial, Clients.get_set_self _ _ _⟩

/-- A call inside the window of an entry that has reached the maximum is refused and changes
nothing. -/
theorem IsRateLimited_full (r : RateLimiter) (now : Int) (k : String) (c R : Int)
    (hget : r.clients.get k = some { Count := c, ResetTime := R }) (hnow : now ≤ R)
    (hc : r.max ≤ c) :
    (IsRateLimited r now k).1.1 = true ∧ (IsRateLimited r now k).2 = r := by
  have h1 : ¬ R < now := not_lt.mpr hnow
  have h2 : c ≥ r.max := hc
  unfold IsRateLimited
  rw [hget]
  simp only [h1, h2, if_false, if_true]
  exact ⟨trivial, trivial⟩

/-- A run of calls inside the window of an existing entry with count `c`: call number `i`
(from zero) is let through while `c + i` is below the maximum, and refused from then on with
the entry at the maximum. -/
theorem callsFor_in_window (k : String) (R : Int) (ts : List Int) :
    ∀ (r : RateLimiter) (c : Int),
      r.clients.get k = some { Count := c, ResetTime := R } → c ≤ r.max →
      (∀ t ∈ ts, t ≤ R) →
      ∀ (i : Nat) (out : Bool × RateLimiter), (callsFor r k ts)[i]? = some out →
        (c + i < r.max → out.1 = false) ∧
        (r.max ≤ c + i → out.1 = true ∧
          out.2.clients.get k = some { Count := r.max, ResetTime := R }) := by
  induction ts with
  | nil =>
    intro r c _ _ _ i out hout
    simp [callsFor] at hout
  | cons t rest ih =>
    intro r c hget hc hts i out hout
    have ht : t ≤ R := hts t (List.mem_cons_self _ _)
    have hrest : ∀ u ∈ rest, u ≤ R := fun u hu => hts u (List.mem_cons_of_mem _ hu)
    by_cases hlt : c < r.max
    · obtain ⟨hres, hst⟩ := IsRateLimited_below r t k c R hget ht hlt
      cases i with
      | zero =>
        simp only [callsFor, List.getElem?_cons_zero, Option.some.injEq] at hout
        subst hout
        constructor
        · intro _
          exact hres
        · intro hge
          simp only [Nat.cast_zero, add_zero] at hge
          omega
      | succ j =>
        simp only [callsFor, List.getElem?_cons_succ] at hout
        have hmax := (IsRateLimited_config r t k).1
        have hih := ih (IsRateLimited r t k).2 (c + 1) hst (by rw [hmax]; omega) hrest j out hout
        rw [hmax] at hih
        constructor
        · intro h
          exact hih.1 (by push_cast at h ⊢; omega)
        · intro h
          exact hih.2 (by push_cast at h ⊢; omega)
    · have hfull : r.max ≤ c := not_lt.mp hlt
      have hceq : c = r.max := le_antisymm hc hfull
      obtain ⟨hres, hst⟩ := IsRateLimited_full r t k c R hget ht hfull
      cases i with
      | zero =>
        simp only [callsFor, List.getElem?_cons_zero, Option.some.injEq] at hout
        subst hout
        constructor
        · intro h
          simp only [Nat.cast_zero, add_zero] at h
          omega
        · intro _
          refine ⟨hres, ?_⟩
          rw [hst, hget, hceq]
      | succ j =>
        simp only [callsFor, List.getElem?_cons_succ] at hout
        rw [hst] at hout
        have hih := ih r c hget hc hrest j out hout
        constructor
        · intro h
          push_cast at h
          omega
        · intro _
          exact hih.2 (by omega)

/-- The run of calls answers every call: it has one result per call time. -/
theorem callsFor_length (k : String) (ts : List Int) :
    ∀ r : RateLimiter, (callsFor r k ts).length = ts.length := by
  induction ts with
  | nil => intro r; rfl
  | cons t rest ih => intro r; simp [callsFor, ih]

/-- C1 (fixed-window counting): for a limiter with `max ≥ 1` and a key that has no entry, in a
run of calls for that key at times `t0 :: ts` where every later time is not after
`t0 + window`, every call is answered, the calls numbered below `max` (from zero) are let
through, and each later call is refused and leaves the entry at count `max` with reset time
`t0 + window`. -/
theorem fixed_window_counting (r : RateLimiter) (k : String) (t0 : Int) (ts : List Int)
    (hmax : 1 ≤ r.max) (hnew : r.clients.get k = none)
    (hwin : ∀ t ∈ ts, t ≤ t0 + r.window) :
    (callsFor r k (t0 :: ts)).length = ts.length + 1 ∧
    ∀ (i : Nat) (out : Bool × RateLimiter), (callsFor r k (t0 :: ts))[i]? = some out →
      ((i : Int) < r.max → out.1 = false) ∧
      (r.max ≤ (i : Int) → out.1 = true ∧
        out.2.clients.get k = some { Count := r.max, ResetTime := t0 + r.window }) := by
  refine ⟨by rw [callsFor_length]; rfl, ?_⟩
  intro i out hout
  have hfirst : IsRateLimited r t0 k = ((false, none),
      { r with clients := r.clients.set k { Count := 1, ResetTime := t0 + r.window } }) := by
    unfold IsRateLimited
    rw [hnew]
  cases i with
  | zero =>
    simp only [callsFor, List.getElem?_cons_zero, Option.some.injEq] at hout
    subst hout
    constructor
    · intro _
      rw [hfirst]
    · intro h
      simp only [Nat.cast_zero] at h
      omega
  | succ j =>
    simp only [callsFor, List.getElem?_cons_succ] at hout
    rw [hfirst] at hout
    have hih := callsFor_in_window k (t0 + r.window) ts
      { r with clients := r.clients.set k { Count := 1, ResetTime := t0 + r.window } } 1
      (Clients.get_set_self _ _ _) hmax hwin j out hout
    constructor
    · intro h
      exact hih.1 (by push_cast at h; show (1 : Int) + j < r.max; omega)
    · intro h
      exact hih.2 (by push_cast at h; show r.max ≤ (1 : Int) + j; omega)

/-- Witness of C1: two requests per window of 10, first call at time 0, later calls at 1, 2, 3
and 10. -/
theorem fixed_window_counting_witness :
    (callsFor sampleLimiter "a" [0, 1, 2, 3, 10]).map Prod.fst
        = [false, false, true, true, true] ∧
    ((callsFor sampleLimiter "a" (0 :: [1, 2, 3, 10])).length = [1, 2, 3, 10].length + 1 ∧
    ∀ (i : Nat) (out : Bool × RateLimiter),
      (callsFor sampleLimiter "a" (0 :: [1, 2, 3, 10]))[i]? = some out →
      ((i : Int) < sampleLimiter.max → out.1 = false) ∧
      (sampleLimiter.max ≤ (i : Int) → out.1 = true ∧
        out.2.clients.get "a" =
          some { Count := sampleLimiter.max, ResetTime := 0 + sampleLimiter.window })) :=
  ⟨by decide,
    fixed_window_counting sampleLimiter "a" 0 [1, 2, 3, 10] (by decide) (by decide)
      (by decide)⟩

/-- C2 (window reset): for a key with an entry of any count and a call time strictly after the
entry's reset time, the call is let through without a response body and leaves the entry
with count 1 and reset time `now + window`. -/
theorem window_reset (r : RateLimiter) (k : String) (info : RateInfo) (now : Int)
    (hget : r.clients.get k = some info) (hlate : info.ResetTime < now) :
    (IsRateLimited r now k).1 = (false, none) ∧
      (IsRateLimited r now k).2.clients.get k
        = some { Count := 1, ResetTime := now + r.window } := by
  unfold IsRateLimited
  rw [hget]
  simp only [hlate, if_true]
  exact ⟨trivial, Clients.get_set_self _ _ _⟩

/-- Witness of C2: client `a` has used up its window, which ended at 10; the call comes at 11. -/
theorem window_reset_witness :
    sampleExhausted.clients.get "a" = some { Count := 2, ResetTime := 10 } ∧
    (2 : Int) = sampleExhausted.max ∧
    ((IsRateLimited sampleExhausted 11 "a").1 = (false, none) ∧
      (IsRateLimited sampleExhausted 11 "a").2.clients.get "a"
        = some { Count := 1, ResetTime := 11 + sampleExhausted.window }) :=
  ⟨by decide, by decide,
    window_reset sampleExhausted "a" { Count := 2, ResetTime := 10 } 11 (by decide) (by decide)⟩

/-- C3 (sweep): one pass of the sweep at time `now` over a table keeps, with its value, every
entry whose reset time is not before `now`, removes every entry whose reset time is before
`now`, adds no key, and leaves the limiter's settings alone. -/
theorem sweep_exact (r : RateLimiter) (now : Int) (hwf : r.clients.WF) :
    (∀ k v, r.clients.get k = some v → now ≤ v.ResetTime →
      (gcSweep r now).clients.get k = some v) ∧
    (∀ k v, r.clients.get k = some v → v.ResetTime < now →
      (gcSweep r now).clients.get k = none) ∧
    (∀ k, r.clients.get k = none → (gcSweep r now).clients.get k = none) ∧
    (∀ k v, (gcSweep r now).clients.get k = some v →
      now ≤ v.ResetTime ∧ r.clients.get k = some v) ∧
    (gcSweep r now).max = r.max ∧ (gcSweep r now).window = r.window := by
  have hdrop : ∀ k v, r.clients.get k = some v → v.ResetTime < now →
      (gcSweep r now).clients.get k = none := by
    intro k v hget hexp
    exact get_foldl_gcVisit_drop now r.clients r.clients k v (Clients.mem_of_get _ _ _ hget) hexp
  refine ⟨?_, hdrop, ?_, ?_, rfl, rfl⟩
  · intro k v hget hlive
    have hkeep := get_foldl_gcVisit_keep now r.clients r.clients k (by
      intro w hw
      have hw2 := Clients.get_of_mem _ hwf k w hw
      rw [hget] at hw2
      cases hw2
      exact not_lt.mpr hlive)
    show (r.clients.foldl (gcVisit now) r.clients).get k = some v
    rw [hkeep, hget]
  · intro k hnone
    cases hres : (gcSweep r now).clients.get k with
    | none => rfl
    | some w =>
      have h1 := get_foldl_gcVisit_sub now r.clients r.clients k w hres
      rw [hnone] at h1
      exact absurd h1 (by simp)
  · intro k v hres
    have h1 := get_foldl_gcVisit_sub now r.clients r.clients k v hres
    refine ⟨?_, h1⟩
    by_contra hexp
    have h2 := hdrop k v h1 (not_le.mp hexp)
    rw [h2] at hres
    exact absurd hres (by simp)

/-- Witness of C3: a sweep at time 20 removes client `a` (window ended at 10) and keeps client
`b` (window ends at 30). -/
theorem sweep_exact_witness :
    sampleExhausted.clients.WF ∧
    (gcSweep sampleExhausted 20).clients = [("b", { Count := 1, ResetTime := 30 })] ∧
    ((∀ k v, sampleExhausted.clients.get k = some v → 20 ≤ v.ResetTime →
      (gcSweep sampleExhausted 20).clients.get k = some v) ∧
    (∀ k v, sampleExhausted.clients.get k = some v → v.ResetTime < 20 →
      (gcSweep sampleExhausted 20).clients.get k = none) ∧
    (∀ k, sampleExhausted.clients.get k = none →
      (gcSweep sampleExhausted 20).clients.get k = none) ∧
    (∀ k v, (gcSweep sampleExhausted 20).clients.get k = some v →
      20 ≤ v.ResetTime ∧ sampleExhausted.clients.get k = some v) ∧
    (gcSweep sampleExhausted 20).max = sampleExhausted.max ∧
    (gcSweep sampleExhausted 20).window = sampleExhausted.window) :=
  ⟨by decide, by decide, sweep_exact sampleExhausted 20 (by decide)⟩

/-- A call keeps the counts between 1 and `max` when `max` is at least 1. -/
theorem IsRateLimited_bounded (r : RateLimiter) (now : Int) (k : String) (hmax : 1 ≤ r.max)
    (hinv : CountsBounded r) : CountsBounded (IsRateLimited r now k).2 := by
  have hset : ∀ (w : RateInfo), 1 ≤ w.Count → w.Count ≤ r.max →
      CountsBounded { r with clients := r.clients.set k w } := by
    intro w hw1 hw2 k' v hget
    by_cases hk : k' = k
    · subst hk
      rw [show ({ r with clients := r.clients.set k' w } : RateLimiter).clients
        = r.clients.set k' w from rfl, Clients.get_set_self] at hget
      cases hget
      exact ⟨hw1, hw2⟩
    · rw [show ({ r with clients := r.clients.set k w } : RateLimiter).clients
        = r.clients.set k w from rfl, Clients.get_set_ne _ _ _ _ hk] at hget
      exact hinv k' v hget
  unfold IsRateLimited
  cases hget : r.clients.get k with
  | none => exact hset _ (le_refl 1) hmax
  | some info =>
    by_cases h1 : info.ResetTime < now
    · simp only [h1, if_true]
      exact hset _ (le_refl 1) hmax
    · by_cases h2 : info.Count ≥ r.max
      · simp only [h1, h2, if_false, if_true]
        exact hinv
      · simp only [h1, h2, if_false]
        have hb := hinv k info hget
        have h3 : info.Count < r.max := not_le.mp h2
        exact hset _ (by show 1 ≤ info.Count + 1; omega) (by show info.Count + 1 ≤ r.max; omega)

/-- A sweep keeps the counts between 1 and `max`. -/
theorem gcSweep_bounded (r : RateLimiter) (now : Int) (hinv : CountsBounded r) :
    CountsBounded (gcSweep r now) := by
  intro k v hget
  exact hinv k v (get_foldl_gcVisit_sub now r.clients r.clients k v hget)

/-- Every event keeps `max` and keeps the counts between 1 and `max`, for `max` at least 1. -/
theorem run_bounded (es : List Event) :
    ∀ r : RateLimiter, 1 ≤ r.max → CountsBounded r →
      (run r es).max = r.max ∧ CountsBounded (run r es) := by
  induction es with
  | nil => intro r _ hinv; exact ⟨rfl, hinv⟩
  | cons e rest ih =>
    intro r hmax hinv
    have hstep : (step r e).max = r.max ∧ CountsBounded (step r e) := by
      cases e with
      | request now k =>
        exact ⟨(IsRateLimited_config r now k).1, IsRateLimited_bounded r now k hmax hinv⟩
      | tick now => exact ⟨rfl, gcSweep_bounded r now hinv⟩
    have h := ih (step r e) (by rw [hstep.1]; exact hmax) hstep.2
    show (run (step r e) rest).max = r.max ∧ CountsBounded (run (step r e) rest)
    exact ⟨h.1.trans hstep.1, h.2⟩

/-- C4, as the code has it (count invariant for a positive maximum): for every `max ≥ 1`, every
window and every sequence of calls and sweeps from the empty table, every stored entry has a
count between 1 and `max`. -/
theorem count_invariant (max window : Int) (es : List Event) (hmax : 1 ≤ max) :
    ∀ k v, (run (NewRateLimiter max window) es).clients.get k = some v →
      1 ≤ v.Count ∧ v.Count ≤ max := by
  have h := run_bounded es (NewRateLimiter max window) hmax (by
    intro k v hget
    simp [NewRateLimiter, Clients.get] at hget)
  intro k v hget
  have hb := h.2 k v hget
  rw [h.1] at hb
  exact hb

/-- Witness of C4 as amended: two requests per window, three calls of one client and a sweep. -/
theorem count_invariant_witness :
    (1 : Int) ≤ 2 ∧
    (run (NewRateLimiter 2 10) [.request 0 "a", .request 1 "a", .request 2 "a", .tick 5]).clients
      = [("a", { Count := 2, ResetTime := 10 })] ∧
    (∀ k v,
      (run (NewRateLimiter 2 10)
        [.request 0 "a", .request 1 "a", .request 2 "a", .tick 5]).clients.get k = some v →
      1 ≤ v.Count ∧ v.Count ≤ 2) :=
  ⟨by decide, by decide,
    count_invariant 2 10 [.request 0 "a", .request 1 "a", .request 2 "a", .tick 5] (by decide)⟩

/-- C4 as stated fails: the environment can set `RATE_LIMIT_REQUESTS` to `0` (or to a negative
number), and then the first call of a client stores the count 1, above the maximum. -/
theorem count_invariant_fails_for_zero_max :
    loadRateLimitRequests sampleZeroEnv = 0 ∧
    loadRateLimitRequests [("RATE_LIMIT_REQUESTS", "-3")] = -3 ∧
    (run (NewRateLimiter (loadRateLimitRequests sampleZeroEnv) 10)
        [.request 0 "a"]).clients.get "a"
      = some { Count := 1, ResetTime := 10 } ∧
    ¬ (∀ k v,
      (run (NewRateLimiter (loadRateLimitRequests sampleZeroEnv) 10)
        [.request 0 "a"]).clients.get k = some v →
      v.Count ≤ loadRateLimitRequests sampleZeroEnv) := by
  have h0 : loadRateLimitRequests sampleZeroEnv = 0 := by decide
  refine ⟨h0, by decide, by rw [h0]; decide, ?_⟩
  intro h
  have h1 := h "a" { Count := 1, ResetTime := 10 } (by rw [h0]; decide)
  rw [h0] at h1
  exact absurd h1 (by decide)

/-! ## Theorems: strings -/

/-- Lowering after raising is lowering. -/
theorem toLower_toUpper (c : Char) : c.toUpper.toLower = c.toLower := by
  by_cases h : 97 ≤ c.toNat ∧ c.toNat ≤ 122
  · have hc : c = Char.ofNat c.toNat := (Char.ofNat_toNat c).symm
    generalize c.toNat = n at h hc
    subst hc
    obtain ⟨h1, h2⟩ := h
    interval_cases n <;> rfl
  · have h1 : c.toUpper = c := by
      unfold Char.toUpper
      simp only [ge_iff_le]
      rw [if_neg h]
    rw [h1]

/-- Raising after lowering is raising. -/
theorem toUpper_toLower (c : Char) : c.toLower.toUpper = c.toUpper := by
  by_cases h : 65 ≤ c.toNat ∧ c.toNat ≤ 90
  · have hc : c = Char.ofNat c.toNat := (Char.ofNat_toNat c).symm
    generalize c.toNat = n at h hc
    subst hc
    obtain ⟨h1, h2⟩ := h
    interval_cases n <;> rfl
  · have h1 : c.toLower = c := by
      unfold Char.toLower
      simp only [ge_iff_le]
      rw [if_neg h]
    rw [h1]

/-- The comparison `strings.ToUpper(p) == "BLOCK"` holds exactly for the spellings of BLOCK in
upper and lower case letters. -/
theorem ToUpper_eq_BLOCK_iff (p : String) :
    ToUpper p = "BLOCK" ↔ equalIgnoringCase p "BLOCK" = true := by
  unfold ToUpper equalIgnoringCase
  rw [decide_eq_true_iff]
  constructor
  · intro h
    have h2 : p.data.map Char.toUpper = "BLOCK".data := congrArg String.data h
    have h3 : (p.data.map Char.toUpper).map Char.toLower = p.data.map Char.toLower := by
      rw [List.map_map]
      exact List.map_congr_left (fun c _ => toLower_toUpper c)
    rw [← h3, h2]
  · intro h
    have h3 : (p.data.map Char.toLower).map Char.toUpper = p.data.map Char.toUpper := by
      rw [List.map_map]
      exact List.map_congr_left (fun c _ => toUpper_toLower c)
    rw [← h3, h]
    rfl

/-- The decimal text that `strconv.Itoa` gives for a status code. -/
theorem Itoa_natCast (n : Nat) : Itoa (n : Int) = decimalDigits n := rfl

/-! ## Theorems: the upstream client -/

/-- The method `ResolveTrack` sends exactly one request. -/
theorem ResolveTrack_sent (s : SoundCloudClient) (lib : Library) (up : Upstream)
    (sent : List Request) (trackURL : String) :
    ∃ req, (ResolveTrack s lib up sent trackURL).2 = sent ++ [req] := by
  unfold ResolveTrack doRequest
  simp only
  split
  · rename_i err sent1 heq
    simp only [Prod.mk.injEq] at heq
    exact ⟨_, heq.2.symm⟩
  · rename_i resp sent1 heq
    simp only [Prod.mk.injEq] at heq
    split
    · exact ⟨_, heq.2.symm⟩
    · split
      · exact ⟨_, heq.2.symm⟩
      · exact ⟨_, heq.2.symm⟩

/-- The result map of a failure has a nil `stream_url`, and carries its message and code. -/
theorem failure_fields (message code : String) :
    (failure message code).index "stream_url" = .null ∧
    (failure message code).index "error" = .string message ∧
    (failure message code).index "error_code" = .string code := by
  refine ⟨?_, ?_, ?_⟩ <;> simp [failure, Object.index, Object.lookup]

/-- After a successful resolve, `GetStreamURL` goes on with the policy test. -/
theorem GetStreamURL_resolved (s : SoundCloudClient) (lib : Library) (up : Upstream)
    (timestamp trackURL : String) (entry : Object)
    (hres : (ResolveTrack s lib up [] trackURL).1 = .ok (some entry)) :
    GetStreamURL s lib up timestamp trackURL =
      if isBlocked entry then
        ((failure "Track is blocked in your region" "GEO_BLOCKED", none),
          (ResolveTrack s lib up [] trackURL).2)
      else if findProgressiveURL (transcodingsOf entry) = "" then
        ((failure "Progressive stream not available for this track" "NO_PROGRESSIVE_STREAM",
          none), (ResolveTrack s lib up [] trackURL).2)
      else
        (((fetchStream s lib up timestamp entry (findProgressiveURL (transcodingsOf entry))
            (ResolveTrack s lib up [] trackURL).2).1, none),
          (fetchStream s lib up timestamp entry (findProgressiveURL (transcodingsOf entry))
            (ResolveTrack s lib up [] trackURL).2).2) := by
  unfold GetStreamURL
  generalize ResolveTrack s lib up [] trackURL = x at hres ⊢
  obtain ⟨a, b⟩ := x
  simp only at hres
  subst hres
  rfl

/-- After a failed resolve, `GetStreamURL` reports that the track was not found. -/
theorem GetStreamURL_unresolved (s : SoundCloudClient) (lib : Library) (up : Upstream)
    (timestamp trackURL : String)
    (hres : ∀ entry, (ResolveTrack s lib up [] trackURL).1 ≠ .ok (some entry)) :
    GetStreamURL s lib up timestamp trackURL =
      ((failure "Track not found or unavailable" "TRACK_NOT_FOUND", none),
        (ResolveTrack s lib up [] trackURL).2) := by
  unfold GetStreamURL
  generalize ResolveTrack s lib up [] trackURL = x at hres ⊢
  obtain ⟨a, b⟩ := x
  simp only at hres
  split
  · rename_i trackInfo sent heq
    simp only [Prod.mk.injEq] at heq
    exact absurd heq.1 (hres trackInfo)
  · rename_i x1 sent hne heq
    simp only [Prod.mk.injEq] at heq
    rw [heq.1, heq.2]

/-- The policy test of `GetStreamURL` succeeds exactly when the `policy` field is a string that
spells BLOCK in upper or lower case letters. -/
theorem isBlocked_iff (entry : Object) :
    isBlocked entry = true ↔
      ∃ p, entry.lookup "policy" = some (.string p) ∧ equalIgnoringCase p "BLOCK" = true := by
  unfold isBlocked
  split
  · rename_i p heq
    rw [decide_eq_true_iff, ToUpper_eq_BLOCK_iff]
    constructor
    · intro h
      exact ⟨p, heq, h⟩
    · rintro ⟨p2, h1, h2⟩
      rw [heq] at h1
      cases h1
      exact h2
  · rename_i hne
    constructor
    · intro h
      exact absurd h (by simp)
    · rintro ⟨p, h1, _⟩
      exact absurd h1 (hne p)

/-- C5 (geo block): when the resolve succeeds with a catalog entry whose `policy` field is a
string that spells BLOCK in any mix of upper and lower case, whatever else the entry holds,
`GetStreamURL` returns a nil error and a result with `error_code` GEO_BLOCKED and a nil
`stream_url`, and the request of the resolve is the only request sent. -/
theorem geo_block (s : SoundCloudClient) (lib : Library) (up : Upstream)
    (timestamp trackURL : String) (entry : Object) (policy : String)
    (hres : (ResolveTrack s lib up [] trackURL).1 = .ok (some entry))
    (hpol : entry.lookup "policy" = some (.string policy))
    (hcase : equalIgnoringCase policy "BLOCK" = true) :
    (GetStreamURL s lib up timestamp trackURL).1.2 = none ∧
    (GetStreamURL s lib up timestamp trackURL).1.1.index "error_code" = .string "GEO_BLOCKED" ∧
    (GetStreamURL s lib up timestamp trackURL).1.1.index "stream_url" = .null ∧
    (GetStreamURL s lib up timestamp trackURL).2 = (ResolveTrack s lib up [] trackURL).2 ∧
    (GetStreamURL s lib up timestamp trackURL).2.length = 1 := by
  have hb : isBlocked entry = true := (isBlocked_iff entry).mpr ⟨policy, hpol, hcase⟩
  rw [GetStreamURL_resolved s lib up timestamp trackURL entry hres, if_pos hb]
  obtain ⟨req, hreq⟩ := ResolveTrack_sent s lib up [] trackURL
  have hf := failure_fields "Track is blocked in your region" "GEO_BLOCKED"
  refine ⟨rfl, hf.2.2, hf.1, rfl, ?_⟩
  simp only [hreq]
  rfl

/-- The loop over the transcodings finds nothing when no element is progressive with a
non-empty `url`. -/
theorem findProgressiveURL_none (l : List Value)
    (h : ∀ t ∈ l, ¬ (isProgressive t = true ∧ transcodingURL t ≠ "")) :
    findProgressiveURL l = "" := by
  induction l with
  | nil => rfl
  | cons t rest ih =>
    have hrest := ih (fun x hx => h x (List.mem_cons_of_mem _ hx))
    have ht := h t (List.mem_cons_self _ _)
    cases t with
    | object tm =>
      unfold findProgressiveURL
      by_cases hp :
          (((Object.index tm "format").asObject).index "protocol").asString = "progressive"
      · have hu : ¬ (Object.index tm "url").asString ≠ "" := by
          intro hu
          exact ht ⟨by simp [isProgressive, hp], by simpa [transcodingURL] using hu⟩
        rw [if_pos hp, if_neg hu]
        exact hrest
      · rw [if_neg hp]
        exact hrest
    | null => simpa [findProgressiveURL] using hrest
    | bool b => simpa [findProgressiveURL] using hrest
    | number n => simpa [findProgressiveURL] using hrest
    | string v => simpa [findProgressiveURL] using hrest
    | array xs => simpa [findProgressiveURL] using hrest

/-- The loop over the transcodings stops at the first element that is progressive with a
non-empty `url`, and yields that `url`. -/
theorem findProgressiveURL_first (pre : List Value) (t : Value) (post : List Value)
    (hpre : ∀ x ∈ pre, ¬ (isProgressive x = true ∧ transcodingURL x ≠ ""))
    (hprog : isProgressive t = true) (hurl : transcodingURL t ≠ "") :
    findProgressiveURL (pre ++ t :: post) = transcodingURL t := by
  induction pre with
  | nil =>
    cases t with
    | object tm =>
      have hp :
          (((Object.index tm "format").asObject).index "protocol").asString = "progressive" := by
        simpa [isProgressive] using hprog
      have hu : (Object.index tm "url").asString ≠ "" := by
        simpa [transcodingURL] using hurl
      show findProgressiveURL (Value.object tm :: post) = _
      unfold findProgressiveURL
      rw [if_pos hp, if_pos hu]
      rfl
    | null => simp [isProgressive] at hprog
    | bool b => simp [isProgressive] at hprog
    | number n => simp [isProgressive] at hprog
    | string v => simp [isProgressive] at hprog
    | array xs => simp [isProgressive] at hprog
  | cons x rest ih =>
    have hrest := ih (fun y hy => hpre y (List.mem_cons_of_mem _ hy))
    have hx := hpre x (List.mem_cons_self _ _)
    cases x with
    | object tm =>
      show findProgressiveURL (Value.object tm :: (rest ++ t :: post)) = _
      unfold findProgressiveURL
      by_cases hp :
          (((Object.index tm "format").asObject).index "protocol").asString = "progressive"
      · have hu : ¬ (Object.index tm "url").asString ≠ "" := by
          intro hu
          exact hx ⟨by simp [isProgressive, hp], by simpa [transcodingURL] using hu⟩
        rw [if_pos hp, if_neg hu]
        exact hrest
      · rw [if_neg hp]
        exact hrest
    | null => simpa [findProgressiveURL] using hrest
    | bool b => simpa [findProgressiveURL] using hrest
    | number n => simpa [findProgressiveURL] using hrest
    | string v => simpa [findProgressiveURL] using hrest
    | array xs => simpa [findProgressiveURL] using hrest

/-- A list with an element that satisfies `p` splits at the first such element. -/
theorem exists_first (p : Value → Prop) (l : List Value) (h : ∃ t ∈ l, p t) :
    ∃ pre t post, l = pre ++ t :: post ∧ p t ∧ ∀ x ∈ pre, ¬ p x := by
  classical
  induction l with
  | nil =>
    obtain ⟨t, ht, _⟩ := h
    simp at ht
  | cons a rest ih =>
    by_cases ha : p a
    · exact ⟨[], a, rest, rfl, ha, by simp⟩
    · obtain ⟨t, ht, hpt⟩ := h
      have hin : t ∈ rest := by
        rcases List.mem_cons.mp ht with heq | hin
        · subst heq
          exact absurd hpt ha
        · exact hin
      obtain ⟨pre, t2, post, hl, hp2, hpre⟩ := ih ⟨t, hin, hpt⟩
      refine ⟨a :: pre, t2, post, by rw [hl]; rfl, hp2, ?_⟩
      intro x hx
      rcases List.mem_cons.mp hx with heq | hin2
      · subst heq
        exact ha
      · exact hpre x hin2

/-- C6 (no progressive encoding): when the resolve succeeds with a catalog entry whose policy
is not BLOCK and whose `media.transcodings` list, read as empty when a field is missing or of
another type, has no progressive element, `GetStreamURL` returns a nil error and a result with
`error_code` NO_PROGRESSIVE_STREAM and a nil `stream_url`, and sends no request after the
resolve. -/
theorem no_progressive (s : SoundCloudClient) (lib : Library) (up : Upstream)
    (timestamp trackURL : String) (entry : Object)
    (hres : (ResolveTrack s lib up [] trackURL).1 = .ok (some entry))
    (hpol : ∀ p, entry.lookup "policy" = some (.string p) → equalIgnoringCase p "BLOCK" = false)
    (hnone : ∀ t ∈ transcodingsOf entry, isProgressive t = false) :
    (GetStreamURL s lib up timestamp trackURL).1.2 = none ∧
    (GetStreamURL s lib up timestamp trackURL).1.1.index "error_code"
      = .string "NO_PROGRESSIVE_STREAM" ∧
    (GetStreamURL s lib up timestamp trackURL).1.1.index "stream_url" = .null ∧
    (GetStreamURL s lib up timestamp trackURL).2 = (ResolveTrack s lib up [] trackURL).2 ∧
    (GetStreamURL s lib up timestamp trackURL).2.length = 1 := by
  have hb : ¬ isBlocked entry = true := by
    intro hb
    obtain ⟨p, h1, h2⟩ := (isBlocked_iff entry).mp hb
    rw [hpol p h1] at h2
    exact absurd h2 (by simp)
  have hfind : findProgressiveURL (transcodingsOf entry) = "" :=
    findProgressiveURL_none _ (fun t ht hboth => by
      rw [hnone t ht] at hboth
      exact absurd hboth.1 (by simp))
  rw [GetStreamURL_resolved s lib up timestamp trackURL entry hres, if_neg hb, if_pos hfind]
  obtain ⟨req, hreq⟩ := ResolveTrack_sent s lib up [] trackURL
  have hf := failure_fields "Progressive stream not available for this track"
    "NO_PROGRESSIVE_STREAM"
  refine ⟨rfl, hf.2.2, hf.1, rfl, ?_⟩
  simp only [hreq]
  rfl

/-- A text that starts with a non-empty literal is not empty. -/
theorem append_ne_empty (a b : String) (ha : a ≠ "") : a ++ b ≠ "" := by
  intro h
  have h2 : (a ++ b).data = [] := congrArg String.data h
  rw [String.data_append] at h2
  have h3 : a.data = [] := (List.append_eq_nil.mp h2).1
  exact ha (String.ext h3)

/-- A code that starts with `API_ERROR_` is none of the fixed codes. -/
theorem api_error_not_fixed (tail : String) : "API_ERROR_" ++ tail ∉ fixedErrorCodes := by
  intro h
  simp only [fixedErrorCodes, List.mem_cons, List.mem_singleton, List.not_mem_nil, or_false] at h
  rcases h with h | h | h | h | h | h <;>
  · have h2 := congrArg String.data h
    rw [String.data_append] at h2
    simp at h2

/-- The four ways in which `readStream` ends. -/
theorem readStream_cases (lib : Library) (timestamp : String) (entry : Object) (resp : Response) :
    (resp.StatusCode ≠ 200 ∧ readStream lib timestamp entry resp =
      failure ("Stream API error: " ++ Itoa resp.StatusCode)
        ("API_ERROR_" ++ Itoa resp.StatusCode)) ∨
    readStream lib timestamp entry resp = failure "Internal server error" "INTERNAL_ERROR" ∨
    readStream lib timestamp entry resp = failure "No stream URL in response" "NO_STREAM_URL" ∨
    IsSuccess (readStream lib timestamp entry resp) := by
  unfold readStream
  by_cases hs : resp.StatusCode ≠ 200
  · left
    rw [if_pos hs]
    exact ⟨hs, rfl⟩
  · right
    rw [if_neg hs]
    cases lib.Unmarshal resp.Body with
    | error e => left; rfl
    | ok streamResp =>
      right
      simp only
      by_cases hu : ((streamResp.getD []).index "url").asString = ""
      · left
        rw [if_pos hu]
      · right
        rw [if_neg hu]
        refine ⟨⟨_, hu, ?_⟩, ?_, ?_⟩ <;> simp [Object.index, Object.lookup]

/-- The three ways in which `fetchStream` goes on after the resolve request `first`. -/
theorem fetchStream_cases (s : SoundCloudClient) (lib : Library) (up : Upstream)
    (timestamp : String) (entry : Object) (u : String) (first : Request) :
    (fetchStream s lib up timestamp entry u [first] =
      (failure "Internal error building stream URL" "INTERNAL_ERROR", [first])) ∨
    (∃ err second, up.Do [first] second = .error err ∧
      fetchStream s lib up timestamp entry u [first] =
        (failure ("Network error: " ++ err) "NETWORK_ERROR", [first, second])) ∨
    (∃ resp second, up.Do [first] second = .ok resp ∧
      fetchStream s lib up timestamp entry u [first] =
        (readStream lib timestamp entry resp, [first, second])) := by
  unfold fetchStream
  cases lib.Parse u with
  | error e => left; rfl
  | ok parsed =>
    right
    simp only [doRequest]
    split
    · rename_i err sent1 heq
      simp only [Prod.mk.injEq] at heq
      left
      refine ⟨err, _, heq.1, ?_⟩
      rw [← heq.2]
      rfl
    · rename_i resp sent1 heq
      simp only [Prod.mk.injEq] at heq
      right
      refine ⟨resp, _, heq.1, ?_⟩
      rw [← heq.2]
      rfl

/-- A failure map with a non-empty message and a fixed code has the failure shape. -/
theorem failure_isFailure (message code : String) (fetched : Option Nat) (hm : message ≠ "")
    (hc : code ∈ fixedErrorCodes) : IsFailure (failure message code) fetched :=
  ⟨(failure_fields message code).1, ⟨message, hm, (failure_fields message code).2.1⟩,
    code, (failure_fields message code).2.2, Or.inl hc⟩

/-- The two shapes exclude each other. -/
theorem not_both_shapes (result : Object) (fetched : Option Nat) (hs : IsSuccess result) :
    ¬ IsFailure result fetched := by
  intro hf
  obtain ⟨⟨u, _, hu⟩, _, _⟩ := hs
  rw [hf.1] at hu
  cases hu

/-- The result of `readStream` has one of the two shapes, and its code is none of the three
that are decided before the stream request. -/
theorem readStream_shape (lib : Library) (timestamp : String) (entry : Object) (resp : Response) :
    (IsSuccess (readStream lib timestamp entry resp) ∨
      IsFailure (readStream lib timestamp entry resp) (some resp.StatusCode)) ∧
    (readStream lib timestamp entry resp).index "error_code"
      ≠ .string "NO_PROGRESSIVE_STREAM" := by
  rcases readStream_cases lib timestamp entry resp with ⟨hs, h⟩ | h | h | h
  · rw [h]
    have hf := failure_fields ("Stream API error: " ++ Itoa resp.StatusCode)
      ("API_ERROR_" ++ Itoa resp.StatusCode)
    constructor
    · right
      exact ⟨hf.1, ⟨_, append_ne_empty _ _ (by decide), hf.2.1⟩, _, hf.2.2,
        Or.inr ⟨resp.StatusCode, rfl, hs, by rw [Itoa_natCast]⟩⟩
    · rw [hf.2.2]
      intro hcode
      injection hcode with hcode
      exact api_error_not_fixed _ (by rw [hcode]; decide)
  · rw [h]
    refine ⟨Or.inr (failure_isFailure _ _ _ (by decide) (by decide)), ?_⟩
    rw [(failure_fields _ _).2.2]
    intro hcode
    injection hcode with hcode
    exact absurd hcode (by decide)
  · rw [h]
    refine ⟨Or.inr (failure_isFailure _ _ _ (by decide) (by decide)), ?_⟩
    rw [(failure_fields _ _).2.2]
    intro hcode
    injection hcode with hcode
    exact absurd hcode (by decide)
  · refine ⟨Or.inl h, ?_⟩
    rw [h.2.2]
    intro hcode
    cases hcode

/-- The result of `fetchStream` has one of the two shapes, with the status code of the answer
to the stream request in an `API_ERROR_` code, and its code is not NO_PROGRESSIVE_STREAM. -/
theorem fetchStream_shape (s : SoundCloudClient) (lib : Library) (up : Upstream)
    (timestamp : String) (entry : Object) (u : String) (first : Request) :
    (IsSuccess (fetchStream s lib up timestamp entry u [first]).1 ∨
      IsFailure (fetchStream s lib up timestamp entry u [first]).1
        (fetchedStatus up (fetchStream s lib up timestamp entry u [first]).2)) ∧
    (fetchStream s lib up timestamp entry u [first]).1.index "error_code"
      ≠ .string "NO_PROGRESSIVE_STREAM" := by
  rcases fetchStream_cases s lib up timestamp entry u first with
    h | ⟨err, second, _, h⟩ | ⟨resp, second, hdo, h⟩
  · rw [h]
    refine ⟨Or.inr (failure_isFailure _ _ _ (by decide) (by decide)), ?_⟩
    show (failure _ _).index "error_code" ≠ _
    rw [(failure_fields _ _).2.2]
    intro hcode
    injection hcode with hcode
    exact absurd hcode (by decide)
  · rw [h]
    refine ⟨Or.inr (failure_isFailure _ _ _ (append_ne_empty _ _ (by decide)) (by decide)), ?_⟩
    show (failure _ _).index "error_code" ≠ _
    rw [(failure_fields _ _).2.2]
    intro hcode
    injection hcode with hcode
    exact absurd hcode (by decide)
  · rw [h]
    have hst : fetchedStatus up [first, second] = some resp.StatusCode := by
      simp only [fetchedStatus, hdo]
    show (IsSuccess (readStream lib timestamp entry resp) ∨
      IsFailure (readStream lib timestamp entry resp) (fetchedStatus up [first, second])) ∧ _
    rw [hst]
    exact readStream_shape lib timestamp entry resp

/-- The Go error that `GetStreamURL` returns is nil on every input. -/
theorem GetStreamURL_err_nil (s : SoundCloudClient) (lib : Library) (up : Upstream)
    (timestamp trackURL : String) : (GetStreamURL s lib up timestamp trackURL).1.2 = none := by
  by_cases hres : ∃ entry, (ResolveTrack s lib up [] trackURL).1 = .ok (some entry)
  · obtain ⟨entry, hres⟩ := hres
    rw [GetStreamURL_resolved s lib up timestamp trackURL entry hres]
    split
    · rfl
    · split <;> rfl
  · rw [GetStreamURL_unresolved s lib up timestamp trackURL (fun entry h => hres ⟨entry, h⟩)]

/-- C8 (discriminated outcome): for every track URL, library behaviour and upstream behaviour,
`GetStreamURL` returns a nil error and a result map of exactly one of two shapes: success
(`stream_url` a non-empty string, `error` and `error_code` nil) or failure (`stream_url` nil,
`error` a non-empty string, `error_code` one of the six fixed codes or `API_ERROR_` followed
by the decimal digits of the status code, other than 200, of the answer to the stream
request); no result has both a non-nil `stream_url` and a non-nil `error_code`. -/
theorem discriminated_outcome (s : SoundCloudClient) (lib : Library) (up : Upstream)
    (timestamp trackURL : String) :
    (GetStreamURL s lib up timestamp trackURL).1.2 = none ∧
    Xor' (IsSuccess (GetStreamURL s lib up timestamp trackURL).1.1)
      (IsFailure (GetStreamURL s lib up timestamp trackURL).1.1
        (fetchedStatus up (GetStreamURL s lib up timestamp trackURL).2)) ∧
    ¬ ((GetStreamURL s lib up timestamp trackURL).1.1.index "stream_url" ≠ .null ∧
      (GetStreamURL s lib up timestamp trackURL).1.1.index "error_code" ≠ .null) := by
  have key : (GetStreamURL s lib up timestamp trackURL).1.2 = none ∧
      (IsSuccess (GetStreamURL s lib up timestamp trackURL).1.1 ∨
        IsFailure (GetStreamURL s lib up timestamp trackURL).1.1
          (fetchedStatus up (GetStreamURL s lib up timestamp trackURL).2)) := by
    obtain ⟨first, hfirst⟩ := ResolveTrack_sent s lib up [] trackURL
    by_cases hres : ∃ entry, (ResolveTrack s lib up [] trackURL).1 = .ok (some entry)
    · obtain ⟨entry, hres⟩ := hres
      rw [GetStreamURL_resolved s lib up timestamp trackURL entry hres]
      by_cases hb : isBlocked entry = true
      · rw [if_pos hb]
        exact ⟨rfl, Or.inr (failure_isFailure _ _ _ (by decide) (by decide))⟩
      · rw [if_neg hb]
        by_cases hp : findProgressiveURL (transcodingsOf entry) = ""
        · rw [if_pos hp]
          exact ⟨rfl, Or.inr (failure_isFailure _ _ _ (by decide) (by decide))⟩
        · rw [if_neg hp, hfirst]
          exact ⟨rfl, (fetchStream_shape s lib up timestamp entry _ first).1⟩
    · rw [GetStreamURL_unresolved s lib up timestamp trackURL
        (fun entry h => hres ⟨entry, h⟩)]
      exact ⟨rfl, Or.inr (failure_isFailure _ _ _ (by decide) (by decide))⟩
  refine ⟨key.1, ?_, ?_⟩
  · rcases key.2 with hs | hf
    · exact Or.inl ⟨hs, not_both_shapes _ _ hs⟩
    · exact Or.inr ⟨hf, fun hs => not_both_shapes _ _ hs hf⟩
  · rintro ⟨h1, h2⟩
    rcases key.2 with hs | hf
    · exact h2 hs.2.2
    · exact h1 hf.1

/-- Witness of C5: the policy is spelled `Block` and the entry has a progressive transcoding. -/
theorem geo_block_witness :
    ((ResolveTrack sampleClient (libraryFor blockedTrack) upstreamOK [] sampleURL).1
        = .ok (some blockedTrack) ∧
      blockedTrack.lookup "policy" = some (.string "Block") ∧
      equalIgnoringCase "Block" "BLOCK" = true) ∧
    ((GetStreamURL sampleClient (libraryFor blockedTrack) upstreamOK "t" sampleURL).1.2 = none ∧
    (GetStreamURL sampleClient (libraryFor blockedTrack) upstreamOK "t" sampleURL).1.1.index
      "error_code" = .string "GEO_BLOCKED" ∧
    (GetStreamURL sampleClient (libraryFor blockedTrack) upstreamOK "t" sampleURL).1.1.index
      "stream_url" = .null ∧
    (GetStreamURL sampleClient (libraryFor blockedTrack) upstreamOK "t" sampleURL).2
      = (ResolveTrack sampleClient (libraryFor blockedTrack) upstreamOK [] sampleURL).2 ∧
    (GetStreamURL sampleClient (libraryFor blockedTrack) upstreamOK "t" sampleURL).2.length = 1) :=
  ⟨⟨rfl, rfl, by decide⟩,
    geo_block sampleClient (libraryFor blockedTrack) upstreamOK "t" sampleURL blockedTrack "Block"
      rfl rfl (by decide)⟩

/-- Witness of C6: an entry whose only transcoding is `hls`. -/
theorem no_progressive_witness :
    ((ResolveTrack sampleClient (libraryFor hlsTrack) upstreamOK [] sampleURL).1
        = .ok (some hlsTrack) ∧
      hlsTrack.lookup "policy" = some (.string "ALLOW") ∧
      equalIgnoringCase "ALLOW" "BLOCK" = false ∧
      (transcodingsOf hlsTrack).map isProgressive = [false]) ∧
    ((GetStreamURL sampleClient (libraryFor hlsTrack) upstreamOK "t" sampleURL).1.2 = none ∧
    (GetStreamURL sampleClient (libraryFor hlsTrack) upstreamOK "t" sampleURL).1.1.index
      "error_code" = .string "NO_PROGRESSIVE_STREAM" ∧
    (GetStreamURL sampleClient (libraryFor hlsTrack) upstreamOK "t" sampleURL).1.1.index
      "stream_url" = .null ∧
    (GetStreamURL sampleClient (libraryFor hlsTrack) upstreamOK "t" sampleURL).2
      = (ResolveTrack sampleClient (libraryFor hlsTrack) upstreamOK [] sampleURL).2 ∧
    (GetStreamURL sampleClient (libraryFor hlsTrack) upstreamOK "t" sampleURL).2.length = 1) :=
  ⟨⟨rfl, rfl, by decide, by decide⟩,
    no_progressive sampleClient (libraryFor hlsTrack) upstreamOK "t" sampleURL hlsTrack rfl
      (by
        intro p hp
        have h : hlsTrack.lookup "policy" = some (.string "ALLOW") := rfl
        rw [h] at hp
        cases hp
        decide)
      (by
        intro t ht
        have h : transcodingsOf hlsTrack = [sampleTranscoding "hls" "https://media/one"] := rfl
        rw [h] at ht
        rw [List.mem_singleton.mp ht]
        decide)⟩

/-- C7, as the code has it (progressive selection): when the resolve succeeds with an entry that
is not blocked and whose transcodings hold at least one element that is progressive and has a
non-empty string `url`, `GetStreamURL` does not end with NO_PROGRESSIVE_STREAM, and the `url`
from which it builds the stream locator is that of the first such element. -/
theorem progressive_selection (s : SoundCloudClient) (lib : Library) (up : Upstream)
    (timestamp trackURL : String) (entry : Object)
    (hres : (ResolveTrack s lib up [] trackURL).1 = .ok (some entry))
    (hpol : isBlocked entry = false)
    (hsome : ∃ t ∈ transcodingsOf entry, isProgressive t = true ∧ transcodingURL t ≠ "") :
    (GetStreamURL s lib up timestamp trackURL).1.1.index "error_code"
      ≠ .string "NO_PROGRESSIVE_STREAM" ∧
    ∃ pre t post, transcodingsOf entry = pre ++ t :: post ∧
      isProgressive t = true ∧ transcodingURL t ≠ "" ∧
      (∀ x ∈ pre, ¬ (isProgressive x = true ∧ transcodingURL x ≠ "")) ∧
      GetStreamURL s lib up timestamp trackURL =
        (((fetchStream s lib up timestamp entry (transcodingURL t)
            (ResolveTrack s lib up [] trackURL).2).1, none),
          (fetchStream s lib up timestamp entry (transcodingURL t)
            (ResolveTrack s lib up [] trackURL).2).2) := by
  obtain ⟨pre, t, post, hsplit, ⟨hprog, hurl⟩, hpre⟩ :=
    exists_first (fun t => isProgressive t = true ∧ transcodingURL t ≠ "") _ hsome
  have hfind : findProgressiveURL (transcodingsOf entry) = transcodingURL t := by
    rw [hsplit]
    exact findProgressiveURL_first pre t post hpre hprog hurl
  have hb : ¬ isBlocked entry = true := by simp [hpol]
  have hne : ¬ findProgressiveURL (transcodingsOf entry) = "" := by
    rw [hfind]
    exact hurl
  have heq := GetStreamURL_resolved s lib up timestamp trackURL entry hres
  rw [if_neg hb, if_neg hne, hfind] at heq
  obtain ⟨first, hfirst⟩ := ResolveTrack_sent s lib up [] trackURL
  constructor
  · rw [heq, hfirst]
    exact (fetchStream_shape s lib up timestamp entry _ first).2
  · exact ⟨pre, t, post, hsplit, hprog, hurl, hpre, heq⟩

/-- Witness of C7 as amended: an `hls` transcoding, then a progressive one with a url. -/
theorem progressive_selection_witness :
    ((ResolveTrack sampleClient (libraryFor playableTrack) upstreamOK [] sampleURL).1
        = .ok (some playableTrack) ∧
      isBlocked playableTrack = false ∧
      (transcodingsOf playableTrack).map isProgressive = [false, true] ∧
      (transcodingsOf playableTrack).map transcodingURL
        = ["https://media/zero", "https://media/one"]) ∧
    (GetStreamURL sampleClient (libraryFor playableTrack) upstreamOK "t" sampleURL).2.map
        Request.Target
      = ["https://api-v2.soundcloud.com/resolve", "https://media/one?client_id=cid"] ∧
    ((GetStreamURL sampleClient (libraryFor playableTrack) upstreamOK "t" sampleURL).1.1.index
        "error_code" ≠ .string "NO_PROGRESSIVE_STREAM" ∧
    ∃ pre t post, transcodingsOf playableTrack = pre ++ t :: post ∧
      isProgressive t = true ∧ transcodingURL t ≠ "" ∧
      (∀ x ∈ pre, ¬ (isProgressive x = true ∧ transcodingURL x ≠ "")) ∧
      GetStreamURL sampleClient (libraryFor playableTrack) upstreamOK "t" sampleURL =
        (((fetchStream sampleClient (libraryFor playableTrack) upstreamOK "t" playableTrack
            (transcodingURL t)
            (ResolveTrack sampleClient (libraryFor playableTrack) upstreamOK [] sampleURL).2).1,
          none),
          (fetchStream sampleClient (libraryFor playableTrack) upstreamOK "t" playableTrack
            (transcodingURL t)
            (ResolveTrack sampleClient (libraryFor playableTrack) upstreamOK [] sampleURL).2).2)) :=
  ⟨⟨rfl, by decide, by decide, by decide⟩, by decide,
    progressive_selection sampleClient (libraryFor playableTrack) upstreamOK "t" sampleURL
      playableTrack rfl (by decide)
      ⟨sampleTranscoding "progressive" "https://media/one",
        by
          have h : transcodingsOf playableTrack = [sampleTranscoding "hls" "https://media/zero",
              sampleTranscoding "progressive" "https://media/one"] := rfl
          rw [h]
          simp,
        by decide, by decide⟩⟩

/-- C7 as stated fails. An entry whose only progressive transcoding has an empty `url` ends
with NO_PROGRESSIVE_STREAM; and when the first progressive transcoding has an empty `url` and
the second has one, the stream locator is built from the second. -/
theorem progressive_selection_fails :
    ((ResolveTrack sampleClient (libraryFor emptyURLTrack) upstreamOK [] sampleURL).1
        = .ok (some emptyURLTrack) ∧
      isBlocked emptyURLTrack = false ∧
      (transcodingsOf emptyURLTrack).map isProgressive = [true] ∧
      ((GetStreamURL sampleClient (libraryFor emptyURLTrack) upstreamOK "t" sampleURL).1.1.index
        "error_code").asString = "NO_PROGRESSIVE_STREAM") ∧
    ((ResolveTrack sampleClient (libraryFor twoProgressiveTrack) upstreamOK [] sampleURL).1
        = .ok (some twoProgressiveTrack) ∧
      isBlocked twoProgressiveTrack = false ∧
      (transcodingsOf twoProgressiveTrack).map isProgressive = [true, true] ∧
      (transcodingsOf twoProgressiveTrack).map transcodingURL = ["", "https://media/second"] ∧
      (GetStreamURL sampleClient (libraryFor twoProgressiveTrack) upstreamOK "t" sampleURL).2.map
          Request.Target
        = ["https://api-v2.soundcloud.com/resolve", "https://media/second?client_id=cid"]) :=
  ⟨⟨rfl, by decide, by decide, by decide⟩,
    ⟨rfl, by decide, by decide, by decide, by decide⟩⟩

/-! ## Theorems: URL validation -/

/-- Cutting a list that does not hold the separator gives the list as its one piece. -/
theorem splitChars_of_not_mem (sep : Char) (cs : List Char) (h : sep ∉ cs) :
    splitChars sep cs = [cs] := by
  induction cs with
  | nil => rfl
  | cons c rest ih =>
    have hc : c ≠ sep := fun e => h (by rw [e]; exact List.mem_cons_self _ _)
    have hrest : sep ∉ rest := fun hin => h (List.mem_cons_of_mem _ hin)
    simp [splitChars, hc, ih hrest]

/-- Trimming a list whose first and last elements are to be kept changes nothing. -/
theorem trimBoth_eq_self (p : Char → Bool) (cs : List Char)
    (hfirst : ∀ c, cs.head? = some c → p c = false)
    (hlast : ∀ c, cs.getLast? = some c → p c = false) :
    trimBoth p cs = cs := by
  unfold trimBoth
  have h1 : cs.dropWhile p = cs := by
    cases cs with
    | nil => rfl
    | cons a t =>
      have ha : p a = false := hfirst a rfl
      simp [List.dropWhile, ha]
  rw [h1]
  have h2 : cs.reverse.dropWhile p = cs.reverse := by
    cases hr : cs.reverse with
    | nil => rfl
    | cons a t =>
      have ha : p a = false := by
        apply hlast a
        rw [← List.head?_reverse, hr]
        rfl
      simp [List.dropWhile, ha]
  rw [h2, List.reverse_reverse]

/-- The characters of the origin prefix followed by a segment. -/
theorem origin_append_data (seg : String) :
    ("https://soundcloud.com/" ++ seg).data = "https://soundcloud.com/".data ++ seg.data :=
  String.data_append _ _

/-- A URL made of the origin prefix and one non-empty segment is cut into four parts, the
third of which is the host. -/
theorem split_one_segment (seg : String) (hne : seg ≠ "") (hslash : '/' ∉ seg.data) :
    Split (Trim ("https://soundcloud.com/" ++ seg) "/") '/'
      = ["https:", "", "soundcloud.com", seg] := by
  have hdata : seg.data ≠ [] := fun h => hne (String.ext h)
  have htrim :
      Trim ("https://soundcloud.com/" ++ seg) "/" = "https://soundcloud.com/" ++ seg := by
    unfold Trim
    apply String.ext
    show trimBoth _ ("https://soundcloud.com/" ++ seg).data
      = ("https://soundcloud.com/" ++ seg).data
    apply trimBoth_eq_self
    · intro c hc
      rw [origin_append_data] at hc
      have : c = 'h' := by
        simpa using hc.symm
      subst this
      decide
    · intro c hc
      rw [origin_append_data, List.getLast?_append_of_ne_nil _ hdata] at hc
      have hmem : c ∈ seg.data := List.mem_of_getLast?_eq_some hc
      have hcne : c ≠ '/' := fun e => hslash (e ▸ hmem)
      simp [hcne]
  rw [htrim]
  unfold Split
  rw [origin_append_data]
  have h0 := splitChars_of_not_mem '/' seg.data hslash
  simp [splitChars, h0]

/-- Trimming a list that starts with an element to be kept leaves something. -/
theorem trimBoth_ne_nil (p : Char → Bool) (a : Char) (t : List Char) (ha : p a = false) :
    trimBoth p (a :: t) ≠ [] := by
  unfold trimBoth
  have h1 : (a :: t).dropWhile p = a :: t := by simp [List.dropWhile, ha]
  rw [h1]
  intro h
  have h2 : (a :: t).reverse.dropWhile p = [] := List.reverse_eq_nil_iff.mp h
  rw [List.dropWhile_eq_nil_iff] at h2
  have h3 := h2 a (by simp)
  rw [ha] at h3
  exact absurd h3 (by simp)

/-- What the code does with every URL made of the origin prefix `https://soundcloud.com/` and
exactly one non-empty path segment: it rejects the URL only when it is longer than `maxLen`
bytes, and accepts it otherwise. -/
theorem one_segment_accepted (seg : String) (maxLen : Int) (hne : seg ≠ "")
    (hslash : '/' ∉ seg.data) :
    ValidateSoundCloudURL ("https://soundcloud.com/" ++ seg) maxLen =
      if (("https://soundcloud.com/" ++ seg).utf8ByteSize : Int) > maxLen then
        (false, "URL too long (max " ++ Itoa maxLen ++ " characters)")
      else (true, "") := by
  have hspace : ¬ TrimSpace ("https://soundcloud.com/" ++ seg) = "" := by
    intro h
    have h2 : trimBoth isSpace ("https://soundcloud.com/" ++ seg).data = [] :=
      congrArg String.data h
    rw [origin_append_data] at h2
    exact trimBoth_ne_nil isSpace 'h' _ (by decide) h2
  have hpre : HasPrefix ("https://soundcloud.com/" ++ seg) "https://soundcloud.com/" = true := by
    unfold HasPrefix
    rw [origin_append_data]
    simp [List.isPrefixOf]
  unfold ValidateSoundCloudURL
  rw [if_neg hspace]
  by_cases hlen : (("https://soundcloud.com/" ++ seg).utf8ByteSize : Int) > maxLen
  · rw [if_pos hlen, if_pos hlen]
  · rw [if_neg hlen, if_neg hlen]
    simp only [hpre, split_one_segment seg hne hslash]
    have h3 : seg ≠ "" := hne
    simp

/-- The same at the segment `a` and the default maximum length. -/
theorem one_segment_accepted_witness :
    (("a" : String) ≠ "" ∧ '/' ∉ ("a" : String).data) ∧
    ValidateSoundCloudURL ("https://soundcloud.com/" ++ "a") 500 =
      if (("https://soundcloud.com/" ++ "a").utf8ByteSize : Int) > 500 then
        (false, "URL too long (max " ++ Itoa 500 ++ " characters)")
      else (true, "") :=
  ⟨⟨by decide, by decide⟩, one_segment_accepted "a" 500 (by decide) (by decide)⟩

/-- C9 fails on the code: the URL `https://soundcloud.com/a`, which has one path segment, is
accepted with the maximum length 500. Its parts are `https:`, the empty string,
`soundcloud.com` and `a`: four of them, so the test `len(parts) < 4` lets it through, and
`parts[2]` is the host, which is never empty. A track URL, with artist and track, has five
parts. -/
theorem one_segment_not_rejected :
    Split (Trim "https://soundcloud.com/a" "/") '/' = ["https:", "", "soundcloud.com", "a"] ∧
    ValidateSoundCloudURL "https://soundcloud.com/a" 500 = (true, "") ∧
    Split (Trim "https://soundcloud.com/a/b" "/") '/'
      = ["https:", "", "soundcloud.com", "a", "b"] := by
  refine ⟨by decide, by decide, by decide⟩

/-! ## Theorems: the stream handler -/

/-- C10 fails on the code: with a valid track URL, a resolve that succeeds and a stream answer
whose body is not JSON, and also with an encoding URL that does not parse,
`processStreamRequest` writes `error_code` INTERNAL_ERROR with status 400. -/
theorem internal_error_written_as_400 :
    (ValidateSoundCloudURL sampleURL 500).1 = true ∧
    ((processStreamRequest sampleHandlers (libraryFor playableTrack) upstreamGarbled "t"
        sampleURL).1.status = 400 ∧
      ((processStreamRequest sampleHandlers (libraryFor playableTrack) upstreamGarbled "t"
        sampleURL).1.body.index "error_code").asString = "INTERNAL_ERROR") ∧
    ((processStreamRequest sampleHandlers (libraryFor unparsableTrack) upstreamOK "t"
        sampleURL).1.status = 400 ∧
      ((processStreamRequest sampleHandlers (libraryFor unparsableTrack) upstreamOK "t"
        sampleURL).1.body.index "error_code").asString = "INTERNAL_ERROR") := by
  refine ⟨by decide, ⟨by decide, by decide⟩, ⟨by decide, by decide⟩⟩

/-- The handler never takes its status 500 branch: `GetStreamURL` returns a nil error on every
input, so every response of `processStreamRequest` has status 200 or 400. -/
theorem processStreamRequest_status (h : Handlers) (lib : Library) (up : Upstream)
    (timestamp trackURL : String) :
    (processStreamRequest h lib up timestamp trackURL).1.status = 200 ∨
    (processStreamRequest h lib up timestamp trackURL).1.status = 400 := by
  unfold processStreamRequest
  simp only
  split
  · right; rfl
  · have herr := GetStreamURL_err_nil h.ScClient lib up timestamp (TrimSpace trackURL)
    rw [herr]
    simp only
    split
    · left; rfl
    · right; rfl

/-! ## Theorems: the burst bound -/

/-- The keys of a table after a write are the written key and the keys before. -/
theorem Clients.mem_keys_set (m : Clients) (k : String) (v : RateInfo) (x : String) :
    x ∈ (m.set k v).map Prod.fst ↔ x = k ∨ x ∈ m.map Prod.fst := by
  induction m with
  | nil => simp [Clients.set]
  | cons kv rest ih =>
    obtain ⟨k0, v0⟩ := kv
    by_cases h : k0 = k
    · subst h
      simp [Clients.set]
    · simp only [Clients.set, h, if_false, List.map_cons, List.mem_cons, ih]
      tauto

/-- A write keeps the table a map. -/
theorem Clients.set_WF (m : Clients) (k : String) (v : RateInfo) (hwf : m.WF) :
    (m.set k v).WF := by
  induction m with
  | nil => simp [Clients.set, Clients.WF]
  | cons kv rest ih =>
    obtain ⟨k0, v0⟩ := kv
    have hwf2 : k0 ∉ rest.map Prod.fst ∧ Clients.WF rest := by
      simpa [Clients.WF] using hwf
    by_cases h : k0 = k
    · subst h
      simpa [Clients.set, Clients.WF] using hwf
    · have hnot : k0 ∉ (Clients.set rest k v).map Prod.fst := by
        rw [Clients.mem_keys_set]
        rintro (e | e)
        · exact h e
        · exact hwf2.1 e
      have hrest : (Clients.set rest k v).WF := ih hwf2.2
      simp only [Clients.set, h, if_false]
      show Clients.WF ((k0, v0) :: Clients.set rest k v)
      unfold Clients.WF at hrest ⊢
      rw [List.map_cons, List.nodup_cons]
      exact ⟨hnot, hrest⟩

/-- A delete adds no key. -/
theorem Clients.mem_keys_delete (m : Clients) (k : String) (x : String)
    (h : x ∈ (m.delete k).map Prod.fst) : x ∈ m.map Prod.fst := by
  induction m with
  | nil => simp [Clients.delete] at h
  | cons kv rest ih =>
    obtain ⟨k0, v0⟩ := kv
    by_cases hk : k0 = k
    · simp only [Clients.delete, hk, if_true] at h
      exact List.mem_cons_of_mem _ (ih h)
    · simp only [Clients.delete, hk, if_false, List.map_cons, List.mem_cons] at h
      rcases h with e | e
      · rw [e]
        exact List.mem_cons_self _ _
      · exact List.mem_cons_of_mem _ (ih e)

/-- A delete keeps the table a map. -/
theorem Clients.delete_WF (m : Clients) (k : String) (hwf : m.WF) : (m.delete k).WF := by
  induction m with
  | nil => simp [Clients.delete, Clients.WF]
  | cons kv rest ih =>
    obtain ⟨k0, v0⟩ := kv
    have hwf2 : k0 ∉ rest.map Prod.fst ∧ Clients.WF rest := by
      simpa [Clients.WF] using hwf
    by_cases hk : k0 = k
    · simp only [Clients.delete, hk, if_true]
      exact ih hwf2.2
    · simp only [Clients.delete, hk, if_false]
      have hrest : (Clients.delete rest k).WF := ih hwf2.2
      show Clients.WF ((k0, v0) :: Clients.delete rest k)
      unfold Clients.WF at hrest ⊢
      rw [List.map_cons, List.nodup_cons]
      exact ⟨fun hin => hwf2.1 (Clients.mem_keys_delete rest k k0 hin), hrest⟩

/-- The loop of `gc` keeps the table a map. -/
theorem foldl_gcVisit_WF (now : Int) (l : List (String × RateInfo)) :
    ∀ cur : Clients, cur.WF → (l.foldl (gcVisit now) cur).WF := by
  induction l with
  | nil => intro cur h; exact h
  | cons kv rest ih =>
    intro cur h
    rw [List.foldl_cons]
    apply ih
    unfold gcVisit
    split
    · exact Clients.delete_WF _ _ h
    · exact h

/-- A call keeps the table a map. -/
theorem IsRateLimited_WF (r : RateLimiter) (now : Int) (k : String) (hwf : r.clients.WF) :
    (IsRateLimited r now k).2.clients.WF := by
  unfold IsRateLimited
  cases r.clients.get k with
  | none => exact Clients.set_WF _ _ _ hwf
  | some info =>
    by_cases h1 : info.ResetTime < now
    · simp only [h1, if_true]
      exact Clients.set_WF _ _ _ hwf
    · by_cases h2 : info.Count ≥ r.max
      · simp only [h1, h2, if_false, if_true]
        exact hwf
      · simp only [h1, h2, if_false]
        exact Clients.set_WF _ _ _ hwf

/-- A call of one client leaves the entries of the other clients alone. -/
theorem IsRateLimited_get_ne (r : RateLimiter) (now : Int) (c k : String) (hne : k ≠ c) :
    (IsRateLimited r now c).2.clients.get k = r.clients.get k := by
  unfold IsRateLimited
  cases r.clients.get c with
  | none => exact Clients.get_set_ne _ _ _ _ hne
  | some info =>
    by_cases h1 : info.ResetTime < now
    · simp only [h1, if_true]
      exact Clients.get_set_ne _ _ _ _ hne
    · by_cases h2 : info.Count ≥ r.max
      · simp only [h1, h2, if_false, if_true]
      · simp only [h1, h2, if_false]
        exact Clients.get_set_ne _ _ _ _ hne

/-- A call of a client without an entry, or after the end of its window, is let through and
opens a window. -/
theorem IsRateLimited_fresh (r : RateLimiter) (now : Int) (k : String)
    (h : r.clients.get k = none ∨
      ∃ info, r.clients.get k = some info ∧ info.ResetTime < now) :
    (IsRateLimited r now k).1.1 = false ∧
      (IsRateLimited r now k).2.clients.get k
        = some { Count := 1, ResetTime := now + r.window } := by
  unfold IsRateLimited
  rcases h with h | ⟨info, h, hexp⟩
  · rw [h]
    exact ⟨rfl, Clients.get_set_self _ _ _⟩
  · rw [h]
    simp only [hexp, if_true]
    exact ⟨trivial, Clients.get_set_self _ _ _⟩

/-- The entry of a key after a sweep of a table that is a map. -/
theorem gcSweep_get (r : RateLimiter) (now : Int) (k : String) (hwf : r.clients.WF) :
    (gcSweep r now).clients.get k =
      match r.clients.get k with
      | some v => if v.ResetTime < now then none else some v
      | none => none := by
  show (r.clients.foldl (gcVisit now) r.clients).get k = _
  cases hget : r.clients.get k with
  | none =>
    cases hres : (r.clients.foldl (gcVisit now) r.clients).get k with
    | none => rfl
    | some w =>
      have h1 := get_foldl_gcVisit_sub now r.clients r.clients k w hres
      rw [hget] at h1
      exact absurd h1 (by simp)
  | some v =>
    by_cases hexp : v.ResetTime < now
    · simp only [hexp, if_true]
      exact get_foldl_gcVisit_drop now r.clients r.clients k v (Clients.mem_of_get _ _ _ hget) hexp
    · simp only [hexp, if_false]
      rw [get_foldl_gcVisit_keep now r.clients r.clients k, hget]
      intro w hw
      have hw2 := Clients.get_of_mem _ hwf k w hw
      rw [hget] at hw2
      cases hw2
      exact hexp

/-- Counting from a later time counts fewer. -/
theorem countFrom_anti (A : List Int) (lo hi : Int) (h : lo ≤ hi) :
    countFrom A hi ≤ countFrom A lo := by
  unfold countFrom
  apply List.countP_mono_left
  intro x _ hx
  simp only [decide_eq_true_eq] at hx ⊢
  omega

/-- An interval holds no more times than there are from its start on. -/
theorem countWithin_le_countFrom (A : List Int) (a b : Int) :
    countWithin A a b ≤ countFrom A a := by
  unfold countWithin countFrom
  apply List.countP_mono_left
  intro x _ hx
  simp only [decide_eq_true_eq] at hx ⊢
  exact hx.1

/-- There is no time from `lo` on when all times are before `lo`. -/
theorem countFrom_eq_zero (A : List Int) (lo : Int) (h : ∀ x ∈ A, x < lo) :
    countFrom A lo = 0 := by
  unfold countFrom
  rw [List.countP_eq_zero]
  intro x hx
  have := h x hx
  simp only [decide_eq_true_eq]
  omega

/-- One more time adds at most one to a count from `lo` on. -/
theorem countFrom_snoc_le (A : List Int) (t lo : Int) :
    countFrom (A ++ [t]) lo ≤ countFrom A lo + 1 := by
  unfold countFrom
  rw [List.countP_append]
  have := List.countP_le_length (fun x => decide (lo ≤ x)) (l := [t])
  simp only [List.length_singleton] at this
  omega

/-- One more time outside an interval leaves its count, one inside adds one. -/
theorem countWithin_snoc (A : List Int) (t a b : Int) :
    countWithin (A ++ [t]) a b = countWithin A a b + if a ≤ t ∧ t ≤ b then 1 else 0 := by
  unfold countWithin
  rw [List.countP_append]
  by_cases h : a ≤ t ∧ t ≤ b
  · simp [h]
  · simp [h]

/-- The bound on every interval survives one more time `t`, not before the others, when
fewer than `2 * max` of the times so far are within a window length before `t`. -/
theorem bound_snoc (max w : Int) (A : List Int) (t : Int)
    (hG : ∀ a b, b - a ≤ w → (countWithin A a b : Int) ≤ 2 * max)
    (hnear : (countFrom A (t - w) : Int) + 1 ≤ 2 * max) :
    ∀ a b, b - a ≤ w → (countWithin (A ++ [t]) a b : Int) ≤ 2 * max := by
  intro a b hab
  rw [countWithin_snoc]
  by_cases h : a ≤ t ∧ t ≤ b
  · rw [if_pos h]
    have h1 := countWithin_le_countFrom A a b
    have h2 := countFrom_anti A (t - w) a (by omega)
    push_cast
    omega
  · rw [if_neg h]
    have := hG a b hab
    push_cast
    omega

/-- The invariant survives the passing of time while the client has no entry. -/
theorem BurstInv_wait_none (max w : Int) (A : List Int) (T t : Int)
    (h : BurstInv max w none A T) (ht : T ≤ t) : BurstInv max w none A t := by
  obtain ⟨hG, hle, hcnt, hlt⟩ := h
  refine ⟨hG, fun x hx => le_trans (hle x hx) ht, ?_, fun x hx => lt_of_lt_of_le (hlt x hx) ht⟩
  have := countFrom_anti A (T - w) (t - w) (by omega)
  omega

/-- The invariant survives the passing of time while the entry of the client stays. -/
theorem BurstInv_wait_some (max w : Int) (info : RateInfo) (A : List Int) (T t : Int)
    (h : BurstInv max w (some info) A T) (ht : T ≤ t) : BurstInv max w (some info) A t := by
  obtain ⟨hG, hle, hc, h1, h2, hstart, hend⟩ := h
  exact ⟨hG, fun x hx => le_trans (hle x hx) ht, hc, h1, h2, le_trans hstart ht, hend⟩

/-- The invariant survives the removal of an entry whose window has ended. -/
theorem BurstInv_drop (max w : Int) (info : RateInfo) (A : List Int) (T t : Int)
    (h : BurstInv max w (some info) A T) (ht : T ≤ t) (hexp : info.ResetTime < t) :
    BurstInv max w none A t := by
  obtain ⟨hG, hle, hc, h1, h2, hstart, hend⟩ := h
  refine ⟨hG, fun x hx => le_trans (hle x hx) ht, ?_,
    fun x hx => lt_of_le_of_lt (hend x hx) hexp⟩
  have := countFrom_anti A (info.ResetTime - w) (t - w) (by omega)
  omega

/-- The invariant survives a call at time `t` that opens a window. -/
theorem BurstInv_open (max w : Int) (hmax : 1 ≤ max) (hw : 0 < w) (entry : Option RateInfo)
    (A : List Int) (T t : Int) (h : BurstInv max w entry A T) (ht : T ≤ t)
    (hfresh : entry = none ∨ ∃ info, entry = some info ∧ info.ResetTime < t) :
    BurstInv max w (some { Count := 1, ResetTime := t + w }) (A ++ [t]) t := by
  have hnear : (countFrom A (t - w) : Int) ≤ max ∧ ∀ x ∈ A, x < t := by
    rcases hfresh with e | ⟨info, e, hexp⟩
    · subst e
      obtain ⟨_, _, hcnt, hlt⟩ := h
      refine ⟨?_, fun x hx => lt_of_lt_of_le (hlt x hx) ht⟩
      have := countFrom_anti A (T - w) (t - w) (by omega)
      omega
    · subst e
      obtain ⟨_, _, hc, h1, _, _, hend⟩ := h
      refine ⟨?_, fun x hx => lt_of_le_of_lt (hend x hx) hexp⟩
      have := countFrom_anti A (info.ResetTime - w) (t - w) (by omega)
      omega
  have hzero := countFrom_eq_zero A t hnear.2
  have hmem : ∀ x ∈ A ++ [t], x ≤ t := by
    intro x hx
    rcases List.mem_append.mp hx with hx | hx
    · exact le_of_lt (hnear.2 x hx)
    · rw [List.mem_singleton.mp hx]
  refine ⟨bound_snoc max w A t h.1 (by omega), hmem, ?_, ?_, ?_, ?_, ?_⟩
  · exact hmax
  · show (countFrom (A ++ [t]) (t + w - w) : Int) ≤ 1
    have h1 := countFrom_snoc_le A t (t + w - w)
    have h2 : t + w - w = t := by omega
    rw [h2] at h1 ⊢
    omega
  · show (countFrom (A ++ [t]) (t + w - 2 * w) : Int) ≤ 1 + max
    have h1 := countFrom_snoc_le A t (t + w - 2 * w)
    have h2 : t + w - 2 * w = t - w := by omega
    rw [h2] at h1 ⊢
    omega
  · show t + w - w ≤ t
    omega
  · intro x hx
    have := hmem x hx
    show x ≤ t + w
    omega

/-- The invariant survives a call at time `t` that is let through inside the window. -/
theorem BurstInv_more (max w : Int) (c R : Int) (A : List Int) (T t : Int)
    (h : BurstInv max w (some { Count := c, ResetTime := R }) A T) (ht : T ≤ t)
    (hin : t ≤ R) (hc : c < max) :
    BurstInv max w (some { Count := c + 1, ResetTime := R }) (A ++ [t]) t := by
  obtain ⟨hG, hle, _, h1, h2, hstart, hend⟩ := h
  simp only at h1 h2 hstart hend
  have hnear : (countFrom A (t - w) : Int) + 1 ≤ 2 * max := by
    have := countFrom_anti A (R - 2 * w) (t - w) (by omega)
    omega
  have hmem : ∀ x ∈ A ++ [t], x ≤ t := by
    intro x hx
    rcases List.mem_append.mp hx with hx | hx
    · exact le_trans (hle x hx) ht
    · rw [List.mem_singleton.mp hx]
  refine ⟨bound_snoc max w A t hG hnear, hmem, ?_, ?_, ?_, ?_, ?_⟩
  · show c + 1 ≤ max
    omega
  · show (countFrom (A ++ [t]) (R - w) : Int) ≤ c + 1
    have := countFrom_snoc_le A t (R - w)
    omega
  · show (countFrom (A ++ [t]) (R - 2 * w) : Int) ≤ c + 1 + max
    have := countFrom_snoc_le A t (R - 2 * w)
    omega
  · show R - w ≤ t
    omega
  · intro x hx
    have := hmem x hx
    show x ≤ R
    omega

/-- From a state in which the invariant holds for client `k`, a run at non-decreasing times
that starts no earlier than `T` keeps the bound on every interval. -/
theorem burst_run (max w : Int) (k : String) (hmax : 1 ≤ max) (hw : 0 < w) (es : List Event) :
    ∀ (r : RateLimiter) (A : List Int) (T : Int), r.max = max → r.window = w →
      r.clients.WF → BurstInv max w (r.clients.get k) A T →
      (∀ e ∈ es, T ≤ e.time) → NonDecreasing es →
      ∀ a b, b - a ≤ w → (countWithin (A ++ admittedTimes r k es) a b : Int) ≤ 2 * max := by
  induction es with
  | nil =>
    intro r A T _ _ _ hinv _ _
    simp only [admittedTimes, List.append_nil]
    exact hinv.1
  | cons e rest ih =>
    intro r A T hrmax hrw hwf hinv hT hsorted
    have hsort2 : (∀ e' ∈ rest, e.time ≤ e'.time) ∧ NonDecreasing rest := by
      unfold NonDecreasing at hsorted ⊢
      rw [List.map_cons, List.pairwise_cons] at hsorted
      refine ⟨fun e' he' => hsorted.1 _ (List.mem_map_of_mem _ he'), hsorted.2⟩
    have hTe : T ≤ e.time := hT e (List.mem_cons_self _ _)
    cases e with
    | tick t =>
      have hTt : T ≤ t := hTe
      have hget := gcSweep_get r t k hwf
      have hinv2 : BurstInv max w ((gcSweep r t).clients.get k) A t := by
        rw [hget]
        cases hentry : r.clients.get k with
        | none =>
          rw [hentry] at hinv
          exact BurstInv_wait_none max w A T t hinv hTt
        | some info =>
          rw [hentry] at hinv
          by_cases hexp : info.ResetTime < t
          · simp only [hexp, if_true]
            exact BurstInv_drop max w info A T t hinv hTt hexp
          · simp only [hexp, if_false]
            exact BurstInv_wait_some max w info A T t hinv hTt
      show ∀ a b, b - a ≤ w →
        (countWithin (A ++ admittedTimes (gcSweep r t) k rest) a b : Int) ≤ 2 * max
      exact ih (gcSweep r t) A t hrmax hrw (foldl_gcVisit_WF t r.clients r.clients hwf) hinv2
        hsort2.1 hsort2.2
    | request t c =>
      have hTt : T ≤ t := hTe
      have hcfg := IsRateLimited_config r t c
      have hwf2 := IsRateLimited_WF r t c hwf
      by_cases hck : c = k
      · subst hck
        by_cases hfresh : r.clients.get c = none ∨
            ∃ info, r.clients.get c = some info ∧ info.ResetTime < t
        · obtain ⟨hres, hst⟩ := IsRateLimited_fresh r t c hfresh
          have hinv2 := BurstInv_open max w hmax hw (r.clients.get c) A T t hinv hTt hfresh
          rw [hrw] at hst
          rw [← hst] at hinv2
          have hstep : A ++ admittedTimes r c (Event.request t c :: rest)
              = (A ++ [t]) ++ admittedTimes (IsRateLimited r t c).2 c rest := by
            simp [admittedTimes, hres]
          rw [hstep]
          exact ih _ (A ++ [t]) t (hcfg.1.trans hrmax) (hcfg.2.trans hrw) hwf2
            hinv2 hsort2.1 hsort2.2
        · have hsome : ∃ info, r.clients.get c = some info ∧ t ≤ info.ResetTime := by
            cases hentry : r.clients.get c with
            | none => exact absurd (Or.inl hentry) hfresh
            | some info =>
              refine ⟨info, rfl, ?_⟩
              by_contra hlt
              exact hfresh (Or.inr ⟨info, hentry, not_le.mp hlt⟩)
          obtain ⟨info, hentry, hin⟩ := hsome
          obtain ⟨cnt, R⟩ := info
          rw [hentry] at hinv
          by_cases hfull : r.max ≤ cnt
          · obtain ⟨hres, hst⟩ := IsRateLimited_full r t c cnt R hentry hin hfull
            have hstep : A ++ admittedTimes r c (Event.request t c :: rest)
                = A ++ admittedTimes r c rest := by
              simp [admittedTimes, hres, hst]
            rw [hstep]
            exact ih r A t hrmax hrw hwf
              (by rw [hentry]; exact BurstInv_wait_some max w _ A T t hinv hTt)
              hsort2.1 hsort2.2
          · have hlt : cnt < r.max := not_le.mp hfull
            obtain ⟨hres, hst⟩ := IsRateLimited_below r t c cnt R hentry hin hlt
            have hinv2 := BurstInv_more max w cnt R A T t hinv hTt hin (by omega)
            rw [← hst] at hinv2
            have hstep : A ++ admittedTimes r c (Event.request t c :: rest)
                = (A ++ [t]) ++ admittedTimes (IsRateLimited r t c).2 c rest := by
              simp [admittedTimes, hres]
            rw [hstep]
            exact ih _ (A ++ [t]) t (hcfg.1.trans hrmax) (hcfg.2.trans hrw) hwf2 hinv2
              hsort2.1 hsort2.2
      · have hget := IsRateLimited_get_ne r t c k (Ne.symm hck)
        have hstep : A ++ admittedTimes r k (Event.request t c :: rest)
            = A ++ admittedTimes (IsRateLimited r t c).2 k rest := by
          simp [admittedTimes, hck]
        rw [hstep]
        have hinv2 : BurstInv max w ((IsRateLimited r t c).2.clients.get k) A t := by
          rw [hget]
          cases hentry : r.clients.get k with
          | none =>
            rw [hentry] at hinv
            exact BurstInv_wait_none max w A T t hinv hTt
          | some info =>
            rw [hentry] at hinv
            exact BurstInv_wait_some max w info A T t hinv hTt
        exact ih _ A t (hcfg.1.trans hrmax) (hcfg.2.trans hrw) hwf2 hinv2 hsort2.1 hsort2.2

/-- C13 (boundary burst bound): for every `max ≥ 1`, every window longer than zero, every run
of calls and sweeps at non-decreasing times from the empty table, every client and every
closed time interval from `a` to `b` with `b - a` at most the window, the number of calls of
the client that the run lets through at times in the interval is at most `2 * max`. -/
theorem burst_bound (max window : Int) (es : List Event) (clientID : String) (a b : Int)
    (hmax : 1 ≤ max) (hwindow : 0 < window) (htimes : NonDecreasing es)
    (hlen : b - a ≤ window) :
    (countWithin (admittedTimes (NewRateLimiter max window) clientID es) a b : Int)
      ≤ 2 * max := by
  cases es with
  | nil =>
    simp only [admittedTimes, countWithin, List.countP_nil]
    push_cast
    omega
  | cons e rest =>
    have hsort : ∀ e' ∈ e :: rest, e.time ≤ e'.time := by
      intro e' he'
      rcases List.mem_cons.mp he' with h | h
      · rw [h]
      · unfold NonDecreasing at htimes
        rw [List.map_cons, List.pairwise_cons] at htimes
        exact htimes.1 _ (List.mem_map_of_mem _ h)
    have hinv : BurstInv max window ((NewRateLimiter max window).clients.get clientID) []
        e.time := by
      refine ⟨?_, by simp, ?_, by simp⟩
      · intro a b _
        simp only [countWithin, List.countP_nil]
        push_cast
        omega
      · simp only [countFrom, List.countP_nil]
        push_cast
        omega
    have h := burst_run max window clientID hmax hwindow (e :: rest)
      (NewRateLimiter max window) [] e.time rfl rfl (by simp [NewRateLimiter, Clients.WF])
      hinv hsort htimes a b hlen
    simpa using h

/-- Witness of C13: two requests per window of 10; client `a` is let through at 0, 10, 11 and
11, three of which lie between 10 and 20. -/
theorem burst_bound_witness :
    admittedTimes (NewRateLimiter 2 10) "a" sampleBurst = [0, 10, 11, 11] ∧
    countWithin (admittedTimes (NewRateLimiter 2 10) "a" sampleBurst) 10 20 = 3 ∧
    ((1 : Int) ≤ 2 ∧ (0 : Int) < 10 ∧ NonDecreasing sampleBurst ∧
      (20 : Int) - 10 ≤ 10) ∧
    (countWithin (admittedTimes (NewRateLimiter 2 10) "a" sampleBurst) 10 20 : Int)
      ≤ 2 * 2 :=
  ⟨by decide, by decide, ⟨by decide, by decide, by decide, by decide⟩,
    burst_bound 2 10 sampleBurst "a" 10 20 (by decide) (by decide) (by decide) (by decide)⟩

/-! ## Theorems: the URL validator, characterised -/

/-- Trimming gives nothing exactly when every element is to be dropped. -/
theorem trimBoth_eq_nil_iff (p : Char → Bool) (cs : List Char) :
    trimBoth p cs = [] ↔ ∀ c ∈ cs, p c = true := by
  have hform : trimBoth p cs = List.rdropWhile p (cs.dropWhile p) := rfl
  rw [hform, List.rdropWhile_eq_nil_iff]
  constructor
  · intro h
    have hnil : cs.dropWhile p = [] := by
      have hhead := List.head?_dropWhile_not p cs
      cases hd : cs.dropWhile p with
      | nil => rfl
      | cons a t =>
        rw [hd] at hhead h
        simp only [List.head?_cons] at hhead
        have := h a (List.mem_cons_self _ _)
        rw [hhead] at this
        exact absurd this (by simp)
    exact List.dropWhile_eq_nil_iff.mp hnil
  · intro h
    have hnil : cs.dropWhile p = [] := List.dropWhile_eq_nil_iff.mpr h
    rw [hnil]
    simp

/-- Dropping from the end of an append stops inside the second list, or at its start when the
first list ends with an element that is kept. -/
theorem rdropWhile_append_kept (p : Char → Bool) (front : List Char) (hne : front ≠ [])
    (hlast : p (front.getLast hne) = false) (back : List Char) :
    List.rdropWhile p (front ++ back) = front ++ List.rdropWhile p back := by
  induction back using List.reverseRecOn with
  | nil =>
    simp only [List.append_nil, List.rdropWhile_nil]
    rw [List.rdropWhile_eq_self_iff]
    intro hl
    simp [hlast]
  | append_singleton init x ih =>
    rw [← List.append_assoc, List.rdropWhile_concat, List.rdropWhile_concat]
    by_cases hx : p x = true
    · simp only [hx, if_true]
      exact ih
    · simp only [hx, Bool.false_eq_true, if_false, List.append_assoc]

/-- Cutting puts what stands before the first separator into the first piece. -/
theorem splitChars_append_sep (sep : Char) (first : List Char) (hfirst : sep ∉ first)
    (rest : List Char) :
    splitChars sep (first ++ sep :: rest) = first :: splitChars sep rest := by
  induction first with
  | nil => simp [splitChars]
  | cons c t ih =>
    have hc : c ≠ sep := fun e => hfirst (by rw [e]; exact List.mem_cons_self _ _)
    have ht : sep ∉ t := fun hin => hfirst (List.mem_cons_of_mem _ hin)
    simp [splitChars, hc, ih ht]

/-- Cutting gives at least one piece. -/
theorem splitChars_ne_nil (sep : Char) (cs : List Char) : splitChars sep cs ≠ [] := by
  cases cs with
  | nil => simp [splitChars]
  | cons c t =>
    unfold splitChars
    split
    · simp
    · split <;> simp

/-- The parts of a URL that starts with the origin prefix: `https:`, the empty string and the
host, followed by more parts exactly when something other than slashes follows the prefix. -/
theorem parts_of_origin (raw : String) (rest : List Char)
    (hraw : raw.data = "https://soundcloud.com/".data ++ rest) :
    ∃ more : List String,
      Split (Trim raw "/") '/' = "https:" :: "" :: "soundcloud.com" :: more ∧
      (more = [] ↔ ∀ c ∈ rest, c = '/') := by
  have hsl : ∀ c : Char, ("/".data.contains c = true) ↔ c = '/' := by
    intro c
    simp
  have hsplit : raw.data = "https://soundcloud.com".data ++ ('/' :: rest) := by
    rw [hraw]
    rfl
  have htrim : (Trim raw "/").data
      = "https://soundcloud.com".data
        ++ List.rdropWhile (fun c => "/".data.contains c) ('/' :: rest) := by
    show trimBoth (fun c => "/".data.contains c) raw.data = _
    have hform : ∀ cs, trimBoth (fun c => "/".data.contains c) cs
        = List.rdropWhile (fun c => "/".data.contains c)
            (cs.dropWhile (fun c => "/".data.contains c)) := fun _ => rfl
    rw [hform, hsplit]
    have hdrop : ("https://soundcloud.com".data ++ ('/' :: rest)).dropWhile
        (fun c => "/".data.contains c) = "https://soundcloud.com".data ++ ('/' :: rest) := by
      show List.dropWhile _ ('h' :: _) = _
      rw [List.dropWhile_cons_of_neg (by decide)]
      rfl
    rw [hdrop]
    exact rdropWhile_append_kept _ _ (by decide) (by decide) _
  unfold Split
  rw [htrim]
  by_cases hall : ∀ c ∈ rest, c = '/'
  · have hnil : List.rdropWhile (fun c => "/".data.contains c) ('/' :: rest) = [] := by
      rw [List.rdropWhile_eq_nil_iff]
      intro x hx
      rcases List.mem_cons.mp hx with e | e
      · rw [e]
        decide
      · rw [hall x e]
        decide
    rw [hnil]
    exact ⟨[], by decide, fun _ => hall, fun _ => rfl⟩
  · have hne : List.rdropWhile (fun c => "/".data.contains c) ('/' :: rest) ≠ [] := by
      intro hnil
      rw [List.rdropWhile_eq_nil_iff] at hnil
      exact hall (fun c hc => (hsl c).mp (hnil c (List.mem_cons_of_mem _ hc)))
    have hpre : List.rdropWhile (fun c => "/".data.contains c) ('/' :: rest) <+: '/' :: rest :=
      List.rdropWhile_prefix _ _
    obtain ⟨kept, hkept⟩ : ∃ kept,
        List.rdropWhile (fun c => "/".data.contains c) ('/' :: rest) = '/' :: kept := by
      cases hk : List.rdropWhile (fun c => "/".data.contains c) ('/' :: rest) with
      | nil => exact absurd hk hne
      | cons a t =>
        rw [hk] at hpre
        obtain ⟨suffix, hs⟩ := hpre
        simp only [List.cons_append, List.cons.injEq] at hs
        exact ⟨t, by rw [hs.1]⟩
    rw [hkept]
    have h1 : "https://soundcloud.com".data ++ '/' :: kept
        = "https:".data ++ '/' :: ([] ++ '/' :: ("soundcloud.com".data ++ '/' :: kept)) := rfl
    rw [h1, splitChars_append_sep _ _ (by decide), splitChars_append_sep _ _ (by decide),
      splitChars_append_sep _ _ (by decide)]
    refine ⟨(splitChars '/' kept).map String.mk, rfl, ?_⟩
    constructor
    · intro hmap
      exact absurd (List.map_eq_nil_iff.mp hmap) (splitChars_ne_nil _ _)
    · intro h
      exact absurd h hall

/-- The outcome of `ValidateSoundCloudURL` for a URL that passes the first three tests. -/
theorem validate_after_checks (raw : String) (maxLen : Int) (rest : List Char)
    (hspace : ¬ TrimSpace raw = "") (hlen : ¬ (raw.utf8ByteSize : Int) > maxLen)
    (hraw : raw.data = "https://soundcloud.com/".data ++ rest) :
    ValidateSoundCloudURL raw maxLen =
      if ∀ c ∈ rest, c = '/' then (false, "Invalid SoundCloud track URL format")
      else (true, "") := by
  have hpre : HasPrefix raw "https://soundcloud.com/" = true := by
    unfold HasPrefix
    rw [hraw]
    simp [List.isPrefixOf]
  obtain ⟨more, hparts, hmore⟩ := parts_of_origin raw rest hraw
  unfold ValidateSoundCloudURL
  rw [if_neg hspace, if_neg hlen]
  simp only [hpre, hparts]
  by_cases hall : ∀ c ∈ rest, c = '/'
  · have hm : more = [] := hmore.mpr hall
    rw [if_pos hall]
    subst hm
    simp
  · have hm : more ≠ [] := fun e => hall (hmore.mp e)
    rw [if_neg hall]
    cases more with
    | nil => exact absurd rfl hm
    | cons m ms => simp

/-- C14 (validator characterisation): for every string `raw` and every integer `maxLen`,
`ValidateSoundCloudURL` returns `(true, "")` exactly when `raw` is not made of white space
only (nor empty), its length in bytes is at most `maxLen`, it starts with
`https://soundcloud.com/`, and what follows that prefix holds a character other than `/`;
otherwise it returns `false` with a non-empty message; and for every `raw` with the prefix the
part `parts[2]` is the host, so the test `parts[2] == ""` is never the one that decides. -/
theorem validator_characterisation (raw : String) (maxLen : Int) :
    (ValidateSoundCloudURL raw maxLen = (true, "") ↔
      raw.data.all isSpace = false ∧ (raw.utf8ByteSize : Int) ≤ maxLen ∧
      ∃ rest : String, raw = "https://soundcloud.com/" ++ rest ∧
        ∃ c ∈ rest.data, c ≠ '/') ∧
    (ValidateSoundCloudURL raw maxLen ≠ (true, "") →
      (ValidateSoundCloudURL raw maxLen).1 = false ∧
        (ValidateSoundCloudURL raw maxLen).2 ≠ "") ∧
    (HasPrefix raw "https://soundcloud.com/" = true →
      (Split (Trim raw "/") '/').getD 2 "" = "soundcloud.com") := by
  have hblank : TrimSpace raw = "" ↔ raw.data.all isSpace = true := by
    constructor
    · intro h
      have h2 : trimBoth isSpace raw.data = [] := congrArg String.data h
      rw [List.all_eq_true]
      exact (trimBoth_eq_nil_iff isSpace raw.data).mp h2
    · intro h
      rw [List.all_eq_true] at h
      exact String.ext ((trimBoth_eq_nil_iff isSpace raw.data).mpr h)
  have hprefix : HasPrefix raw "https://soundcloud.com/" = true ↔
      ∃ rest : List Char, raw.data = "https://soundcloud.com/".data ++ rest := by
    unfold HasPrefix
    rw [List.isPrefixOf_iff_prefix]
    constructor
    · rintro ⟨t, ht⟩
      exact ⟨t, ht.symm⟩
    · rintro ⟨t, ht⟩
      exact ⟨t, ht.symm⟩
  refine ⟨?_, ?_, ?_⟩
  · by_cases hspace : TrimSpace raw = ""
    · have hres : ValidateSoundCloudURL raw maxLen = (false, "URL is required") := by
        unfold ValidateSoundCloudURL
        rw [if_pos hspace]
      rw [hres]
      constructor
      · intro h
        exact absurd h (by simp)
      · rintro ⟨hns, _⟩
        rw [hblank.mp hspace] at hns
        exact absurd hns (by simp)
    · have hns : raw.data.all isSpace = false := by
        cases hb : raw.data.all isSpace with
        | false => rfl
        | true => exact absurd (hblank.mpr hb) hspace
      by_cases hlen : (raw.utf8ByteSize : Int) > maxLen
      · have hres : ValidateSoundCloudURL raw maxLen
            = (false, "URL too long (max " ++ Itoa maxLen ++ " characters)") := by
          unfold ValidateSoundCloudURL
          rw [if_neg hspace, if_pos hlen]
        rw [hres]
        constructor
        · intro h
          exact absurd h (by simp)
        · rintro ⟨_, hle, _⟩
          omega
      · by_cases hpre : HasPrefix raw "https://soundcloud.com/" = true
        · obtain ⟨rest, hraw⟩ := hprefix.mp hpre
          rw [validate_after_checks raw maxLen rest hspace hlen hraw]
          by_cases hall : ∀ c ∈ rest, c = '/'
          · rw [if_pos hall]
            constructor
            · intro h
              exact absurd h (by simp)
            · rintro ⟨_, _, rest2, hr2, c, hc, hcne⟩
              have hd : raw.data = "https://soundcloud.com/".data ++ rest2.data := by
                rw [hr2, String.data_append]
              rw [hraw] at hd
              have hsame : rest = rest2.data := List.append_cancel_left hd
              rw [← hsame] at hc
              exact absurd (hall c hc) hcne
          · rw [if_neg hall]
            constructor
            · intro _
              refine ⟨hns, by omega, String.mk rest, ?_, ?_⟩
              · apply String.ext
                rw [String.data_append, hraw]
              · by_contra hno
                apply hall
                intro c hc
                by_contra hcne
                exact hno ⟨c, hc, hcne⟩
            · intro _
              rfl
        · have hres : ValidateSoundCloudURL raw maxLen
              = (false, "Invalid SoundCloud URL format") := by
            unfold ValidateSoundCloudURL
            rw [if_neg hspace, if_neg hlen]
            simp [hpre]
          rw [hres]
          constructor
          · intro h
            exact absurd h (by simp)
          · rintro ⟨_, _, rest2, hr2, _⟩
            exfalso
            apply hpre
            apply hprefix.mpr
            exact ⟨rest2.data, by rw [hr2, String.data_append]⟩
  · intro hne
    unfold ValidateSoundCloudURL at hne ⊢
    by_cases hspace : TrimSpace raw = ""
    · rw [if_pos hspace]
      exact ⟨rfl, by decide⟩
    · rw [if_neg hspace] at hne ⊢
      by_cases hlen : (raw.utf8ByteSize : Int) > maxLen
      · rw [if_pos hlen]
        refine ⟨rfl, ?_⟩
        show ("URL too long (max " ++ Itoa maxLen) ++ " characters)" ≠ ""
        exact append_ne_empty _ _ (append_ne_empty _ _ (by decide))
      · rw [if_neg hlen] at hne ⊢
        by_cases hpre : (!HasPrefix raw "https://soundcloud.com/") = true
        · rw [if_pos hpre]
          exact ⟨rfl, by decide⟩
        · rw [if_neg hpre] at hne ⊢
          simp only at hne ⊢
          split
          · exact ⟨rfl, by decide⟩
          · rename_i hcond
            rw [if_neg hcond] at hne
            exact absurd rfl hne
  · intro hpre
    obtain ⟨rest, hraw⟩ := hprefix.mp hpre
    obtain ⟨more, hparts, _⟩ := parts_of_origin raw rest hraw
    rw [hparts]
    rfl

/-! ## Theorems: loading the .env file -/

/-- A variable that was just stored has the value given. -/
theorem LookupEnv_storeEnv_self (env : Environ) (key value : String) :
    LookupEnv (storeEnv env key value) key = some value := by
  induction env with
  | nil => simp [storeEnv, LookupEnv]
  | cons kv rest ih =>
    obtain ⟨k, v⟩ := kv
    by_cases h : k = key
    · simp [storeEnv, LookupEnv, h]
    · simp [storeEnv, LookupEnv, h, ih]

/-- Storing a variable leaves the others alone. -/
theorem LookupEnv_storeEnv_ne (env : Environ) (key other value : String) (hne : other ≠ key) :
    LookupEnv (storeEnv env key value) other = LookupEnv env other := by
  induction env with
  | nil => simp [storeEnv, LookupEnv, Ne.symm hne]
  | cons kv rest ih =>
    obtain ⟨k, v⟩ := kv
    by_cases h : k = key
    · subst h
      simp [storeEnv, LookupEnv, Ne.symm hne]
    · by_cases h2 : k = other
      · subst h2
        simp [storeEnv, LookupEnv, h]
      · simp [storeEnv, LookupEnv, h, h2, ih]

/-- The call `os.Setenv` leaves the variables with another name alone, whether it stores or
refuses. -/
theorem LookupEnv_Setenv_ne (env : Environ) (key other value : String) (hne : other ≠ key) :
    LookupEnv (Setenv env key value).1 other = LookupEnv env other := by
  unfold Setenv
  split
  · exact LookupEnv_storeEnv_ne env key other value hne
  · rfl

/-- The call `os.Setenv` stores a name and value that pass its test. -/
theorem LookupEnv_Setenv_self (env : Environ) (key value : String)
    (hok : settable key value = true) :
    LookupEnv (Setenv env key value).1 key = some value := by
  unfold Setenv
  rw [if_pos hok]
  exact LookupEnv_storeEnv_self env key value

/-- One line of the file leaves a variable that is set as it is. -/
theorem loadEnvLine_keep (env : Environ) (text key v : String)
    (hset : LookupEnv env key = some v) : LookupEnv (loadEnvLine env text) key = some v := by
  unfold loadEnvLine
  cases parseEnvLine text with
  | none => exact hset
  | some kv =>
    obtain ⟨k, w⟩ := kv
    simp only
    by_cases hk : (LookupEnv env k).isNone = true
    · rw [if_pos hk]
      have hne : key ≠ k := by
        intro e
        subst e
        rw [hset] at hk
        simp at hk
      rw [LookupEnv_Setenv_ne _ _ _ _ hne]
      exact hset
    · rw [if_neg hk]
      exact hset

/-- The lines of the file leave a variable that is set as it is. -/
theorem foldl_loadEnvLine_keep (lines : List String) (key v : String) :
    ∀ env : Environ, LookupEnv env key = some v →
      LookupEnv (lines.foldl loadEnvLine env) key = some v := by
  induction lines with
  | nil => intro env h; exact h
  | cons line rest ih =>
    intro env h
    exact ih _ (loadEnvLine_keep env line key v h)

/-- One line of the file gives an unset variable the value it defines for it, when
`os.Setenv` accepts what the line defines, and leaves it unset when it defines none. -/
theorem loadEnvLine_unset (env : Environ) (text key : String)
    (hunset : LookupEnv env key = none)
    (hok : ∀ k v, parseEnvLine text = some (k, v) → settable k v = true) :
    LookupEnv (loadEnvLine env text) key =
      match parseEnvLine text with
      | some (k, v) => if k = key then some v else none
      | none => none := by
  unfold loadEnvLine
  cases hp : parseEnvLine text with
  | none => exact hunset
  | some kv =>
    obtain ⟨k, w⟩ := kv
    simp only
    by_cases hk : k = key
    · subst hk
      rw [hunset]
      simp [LookupEnv_Setenv_self _ _ _ (hok k w hp)]
    · rw [if_neg hk]
      by_cases hn : (LookupEnv env k).isNone = true
      · rw [if_pos hn, LookupEnv_Setenv_ne _ _ _ _ (Ne.symm hk)]
        exact hunset
      · rw [if_neg hn]
        exact hunset

/-- The lines of the file give an unset variable the value of the first line that defines it,
when `os.Setenv` accepts what the lines define. -/
theorem foldl_loadEnvLine_unset (lines : List String) (key : String)
    (hok : ∀ l ∈ lines, ∀ k v, parseEnvLine l = some (k, v) → settable k v = true) :
    ∀ env : Environ, LookupEnv env key = none →
      LookupEnv (lines.foldl loadEnvLine env) key = firstDefinition lines key := by
  induction lines with
  | nil => intro env h; exact h
  | cons line rest ih =>
    intro env h
    have hline := loadEnvLine_unset env line key h (hok line (List.mem_cons_self _ _))
    have ih2 := ih (fun l hl => hok l (List.mem_cons_of_mem _ hl))
    rw [List.foldl_cons]
    unfold firstDefinition
    cases hp : parseEnvLine line with
    | none =>
      rw [hp] at hline
      exact ih2 _ hline
    | some kv =>
      obtain ⟨k, w⟩ := kv
      rw [hp] at hline
      simp only at hline ⊢
      by_cases hk : k = key
      · rw [if_pos hk] at hline
        rw [if_pos hk]
        exact foldl_loadEnvLine_keep rest key w _ hline
      · rw [if_neg hk] at hline
        rw [if_neg hk]
        exact ih2 _ hline

/-- The first definition of a key is that of the first line that defines it. -/
theorem firstDefinition_split (pre : List String) (line : String) (post : List String)
    (key value : String) (hline : parseEnvLine line = some (key, value))
    (hpre : ∀ l ∈ pre, ∀ v, parseEnvLine l ≠ some (key, v)) :
    firstDefinition (pre ++ line :: post) key = some value := by
  induction pre with
  | nil =>
    show firstDefinition (line :: post) key = some value
    unfold firstDefinition
    rw [hline]
    simp
  | cons l rest ih =>
    have hrest := ih (fun x hx => hpre x (List.mem_cons_of_mem _ hx))
    have hl := hpre l (List.mem_cons_self _ _)
    show firstDefinition (l :: (rest ++ line :: post)) key = some value
    unfold firstDefinition
    cases hp : parseEnvLine l with
    | none => exact hrest
    | some kv =>
      obtain ⟨k, w⟩ := kv
      simp only
      by_cases hk : k = key
      · subst hk
        exact absurd hp (hl w)
      · rw [if_neg hk]
        exact hrest

/-- No line defines the key: there is no first definition. -/
theorem firstDefinition_none (lines : List String) (key : String)
    (h : ∀ l ∈ lines, ∀ v, parseEnvLine l ≠ some (key, v)) :
    firstDefinition lines key = none := by
  induction lines with
  | nil => rfl
  | cons l rest ih =>
    have hrest := ih (fun x hx => h x (List.mem_cons_of_mem _ hx))
    have hl := h l (List.mem_cons_self _ _)
    unfold firstDefinition
    cases hp : parseEnvLine l with
    | none => exact hrest
    | some kv =>
      obtain ⟨k, w⟩ := kv
      simp only
      by_cases hk : k = key
      · subst hk
        exact absurd hp (hl w)
      · rw [if_neg hk]
        exact hrest

/-- The first definition does not change when lines are replaced by lines that read the
same. -/
theorem firstDefinition_congr (key : String) (xs ys : List String)
    (h : xs.map parseEnvLine = ys.map parseEnvLine) :
    firstDefinition xs key = firstDefinition ys key := by
  induction xs generalizing ys with
  | nil =>
    cases ys with
    | nil => rfl
    | cons y t => simp at h
  | cons x rest ih =>
    cases ys with
    | nil => simp at h
    | cons y t =>
      simp only [List.map_cons, List.cons.injEq] at h
      unfold firstDefinition
      rw [h.1, ih t h.2]

/-- A blank line at the end adds no definition. -/
theorem firstDefinition_append_blank (key : String) (xs : List String) :
    firstDefinition (xs ++ [""]) key = firstDefinition xs key := by
  induction xs with
  | nil =>
    show firstDefinition [""] key = firstDefinition [] key
    unfold firstDefinition
    have h : parseEnvLine "" = none := by decide
    rw [h]
    rfl
  | cons x rest ih =>
    show firstDefinition (x :: (rest ++ [""])) key = firstDefinition (x :: rest) key
    unfold firstDefinition
    rw [ih]

/-- The library function `strings.Cut` on a text with a separator: the text is what stands
before the first separator, the separator and what stands after it. -/
theorem Cut_found (s : String) (sep : Char) (a b : String) (h : Cut s sep = (a, b, true)) :
    s = a ++ String.mk [sep] ++ b ∧ sep ∉ a.data := by
  unfold Cut at h
  rw [List.span_eq_take_drop] at h
  have hsplit := List.takeWhile_append_dropWhile (fun c => c != sep) s.data
  have hhead := List.head?_dropWhile_not (fun c => c != sep) s.data
  cases hd : s.data.dropWhile (fun c => c != sep) with
  | nil =>
    rw [hd] at h
    simp at h
  | cons x after =>
    rw [hd] at h hsplit hhead
    simp only [Prod.mk.injEq, and_true] at h
    simp only [List.head?_cons, bne_eq_false_iff_eq] at hhead
    obtain ⟨ha, hb⟩ := h
    subst hhead
    constructor
    · apply String.ext
      rw [String.data_append, String.data_append, ← ha, ← hb]
      simpa using hsplit.symm
    · rw [← ha]
      intro hin
      have := List.mem_takeWhile_imp hin
      simp at this

/-- The library function `strings.Cut` on a text without a separator. -/
theorem Cut_not_found (s : String) (sep : Char) (a b : String) (h : Cut s sep = (a, b, false)) :
    sep ∉ s.data := by
  unfold Cut at h
  rw [List.span_eq_take_drop] at h
  cases hd : s.data.dropWhile (fun c => c != sep) with
  | nil =>
    have hall := List.dropWhile_eq_nil_iff.mp hd
    intro hin
    have := hall sep hin
    simp at this
  | cons x after =>
    rw [hd] at h
    simp at h

/-- The library function `strings.Cut` cuts at the first separator. -/
theorem Cut_append (k v : String) (sep : Char) (hk : sep ∉ k.data) :
    Cut (k ++ String.mk [sep] ++ v) sep = (k, v, true) := by
  unfold Cut
  rw [List.span_eq_take_drop]
  have hdata : (k ++ String.mk [sep] ++ v).data = k.data ++ sep :: v.data := by
    rw [String.data_append, String.data_append]
    simp
  have hall : ∀ c ∈ k.data, (c != sep) = true := by
    intro c hc
    simp only [bne_iff_ne, ne_eq]
    intro e
    exact hk (e ▸ hc)
  rw [hdata, List.takeWhile_append_of_pos hall, List.dropWhile_append_of_pos hall]
  simp

/-- A text has a prefix exactly when it is the prefix followed by something. -/
theorem HasPrefix_iff (s pre : String) :
    HasPrefix s pre = true ↔ ∃ rest : String, s = pre ++ rest := by
  unfold HasPrefix
  rw [List.isPrefixOf_iff_prefix]
  constructor
  · rintro ⟨t, ht⟩
    exact ⟨String.mk t, String.ext (by rw [String.data_append, ← ht])⟩
  · rintro ⟨rest, hr⟩
    exact ⟨rest.data, by rw [hr, String.data_append]⟩

/-- The library function `strings.TrimPrefix` takes a prefix away. -/
theorem TrimPrefix_append (pre rest : String) : TrimPrefix (pre ++ rest) pre = rest := by
  have hp : HasPrefix (pre ++ rest) pre = true := (HasPrefix_iff _ _).mpr ⟨rest, rfl⟩
  unfold TrimPrefix
  rw [if_pos hp]
  apply String.ext
  show List.drop pre.data.length (pre ++ rest).data = rest.data
  rw [String.data_append, List.drop_left]

/-- The loop body reads from a line exactly what the line defines in the words of the
specification. -/
theorem parseEnvLine_iff (line key value : String) :
    parseEnvLine line = some (key, value) ↔ DefinesOn line key value := by
  constructor
  · intro h
    unfold parseEnvLine at h
    simp only at h
    by_cases h1 : (decide (TrimSpace line = "") || HasPrefix (TrimSpace line) "#") = true
    · rw [if_pos h1] at h
      exact absurd h (by simp)
    · rw [if_neg h1] at h
      have hcomment : HasPrefix (TrimSpace line) "#" = false := by
        cases hc : HasPrefix (TrimSpace line) "#" with
        | false => rfl
        | true => rw [hc] at h1; simp at h1
      generalize hbody : (if HasPrefix (TrimSpace line) "export " = true
          then TrimSpace (TrimPrefix (TrimSpace line) "export ") else TrimSpace line) = body at h
      cases hcut : Cut body '=' with
      | mk a rest =>
        obtain ⟨b, found⟩ := rest
        rw [hcut] at h
        simp only at h
        cases found with
        | false => simp at h
        | true =>
          simp only [Bool.not_true, Bool.false_eq_true, if_false] at h
          by_cases hkey : TrimSpace a = ""
          · rw [if_pos hkey] at h
            exact absurd h (by simp)
          · rw [if_neg hkey] at h
            simp only [Option.some.injEq, Prod.mk.injEq] at h
            obtain ⟨hbodyeq, hnoeq⟩ := Cut_found body '=' a b hcut
            refine ⟨body, a, b, hcomment, ?_, hbodyeq, hnoeq, h.1.symm, ?_, h.2.symm⟩
            · by_cases hexp : HasPrefix (TrimSpace line) "export " = true
              · right
                rw [if_pos hexp] at hbody
                obtain ⟨rest, hrest⟩ := (HasPrefix_iff _ _).mp hexp
                refine ⟨rest, hrest, ?_⟩
                rw [← hbody, hrest, TrimPrefix_append]
              · left
                rw [if_neg hexp] at hbody
                refine ⟨?_, hbody.symm⟩
                cases hc : HasPrefix (TrimSpace line) "export " with
                | false => rfl
                | true => exact absurd hc hexp
            · rw [← h.1]
              exact hkey
  · rintro ⟨body, k, v, hcomment, hbranch, hbody, hnoeq, hkey, hkeyne, hvalue⟩
    have hcut : Cut body '=' = (k, v, true) := by
      rw [hbody]
      exact Cut_append k v '=' hnoeq
    have hbodyif : (if HasPrefix (TrimSpace line) "export " = true
        then TrimSpace (TrimPrefix (TrimSpace line) "export ") else TrimSpace line) = body := by
      rcases hbranch with ⟨hexp, hb⟩ | ⟨rest, hrest, hb⟩
      · rw [hexp, hb]
        simp
      · have hexp : HasPrefix (TrimSpace line) "export " = true :=
          (HasPrefix_iff _ _).mpr ⟨rest, hrest⟩
        rw [if_pos hexp, hrest, TrimPrefix_append, hb]
    have hnonblank : TrimSpace line ≠ "" := by
      intro hblank
      rcases hbranch with ⟨_, hb⟩ | ⟨rest, hrest, _⟩
      · rw [hblank] at hb
        rw [hb] at hcut
        have hempty : Cut "" '=' = ("", "", false) := by decide
        rw [hempty] at hcut
        simp at hcut
      · rw [hblank] at hrest
        have := congrArg String.data hrest
        rw [String.data_append] at this
        simp at this
    unfold parseEnvLine
    simp only
    have h1 : ¬ (decide (TrimSpace line = "") || HasPrefix (TrimSpace line) "#") = true := by
      simp [hnonblank, hcomment]
    rw [if_neg h1, hbodyif, hcut]
    simp only [Bool.not_true, Bool.false_eq_true, if_false]
    rw [← hkey, if_neg hkeyne, hvalue]

/-- Trimming keeps only elements of the list. -/
theorem trimBoth_subset (p : Char → Bool) (cs : List Char) (c : Char)
    (h : c ∈ trimBoth p cs) : c ∈ cs := by
  have hform : trimBoth p cs = List.rdropWhile p (cs.dropWhile p) := rfl
  rw [hform] at h
  have h1 : c ∈ cs.dropWhile p := (List.rdropWhile_prefix p _).subset h
  exact (List.dropWhile_sublist p).subset h1

/-- Trimming does not see a final element that is to be dropped. -/
theorem trimBoth_concat_pos (p : Char → Bool) (cs : List Char) (x : Char) (hx : p x = true) :
    trimBoth p (cs ++ [x]) = trimBoth p cs := by
  have hform : ∀ l, trimBoth p l = List.rdropWhile p (l.dropWhile p) := fun _ => rfl
  rw [hform, hform, List.dropWhile_append]
  cases hd : cs.dropWhile p with
  | nil => simp [List.dropWhile, hx]
  | cons a t =>
    simp only [List.isEmpty_cons, Bool.false_eq_true, if_false]
    exact List.rdropWhile_concat_pos p _ x hx

/-- The loop body reads a line after its white space is trimmed. -/
theorem parseEnvLine_congr (a b : String) (h : TrimSpace a = TrimSpace b) :
    parseEnvLine a = parseEnvLine b := by
  unfold parseEnvLine
  simp only
  rw [h]

/-- The loop body reads the same from a line with and without its final carriage return. -/
theorem parseEnvLine_dropCR (piece : List Char) :
    parseEnvLine (String.mk (dropCR piece)) = parseEnvLine (String.mk piece) := by
  apply parseEnvLine_congr
  unfold dropCR
  by_cases hcr : piece.getLast? = some '\r'
  · rw [if_pos hcr]
    have hsplit : piece.dropLast ++ ['\r'] = piece :=
      List.dropLast_append_getLast? '\r' (by rw [hcr]; exact rfl)
    apply String.ext
    show trimBoth isSpace piece.dropLast = trimBoth isSpace piece
    rw [← hsplit, List.dropLast_concat, trimBoth_concat_pos isSpace _ '\r' (by decide)]
  · rw [if_neg hcr]

/-- The pieces that count as lines are pieces of the text. -/
theorem rawLines_subset (text : String) (piece : List Char) (h : piece ∈ rawLines text) :
    String.mk piece ∈ textLines text := by
  unfold textLines
  apply List.mem_map_of_mem
  unfold rawLines at h
  simp only at h
  split at h
  · exact List.dropLast_subset _ h
  · exact h

/-- The scanner delivers every line, and no error, of a text whose lines all fit its
buffer. -/
theorem scanLines_of_fit (text : String)
    (hfit : ∀ l ∈ textLines text, l.utf8ByteSize < maxScanTokenSize) :
    scanLines text = ((rawLines text).map fun piece => String.mk (dropCR piece), none) := by
  have hall : (rawLines text).takeWhile
      (fun piece => decide ((String.mk piece).utf8ByteSize < maxScanTokenSize))
      = rawLines text := by
    rw [List.takeWhile_eq_self_iff]
    intro piece hp
    simp only [decide_eq_true_eq]
    exact hfit _ (rawLines_subset text piece hp)
  unfold scanLines
  simp only [hall, lt_self_iff_false, if_false]

/-- The lines that the scanner delivers define what the lines of the text define. -/
theorem firstDefinition_rawLines (text key : String) :
    firstDefinition ((rawLines text).map fun piece => String.mk (dropCR piece)) key
      = firstDefinition (textLines text) key := by
  have h1 : firstDefinition ((rawLines text).map fun piece => String.mk (dropCR piece)) key
      = firstDefinition ((rawLines text).map String.mk) key := by
    apply firstDefinition_congr
    rw [List.map_map, List.map_map]
    apply List.map_congr_left
    intro piece _
    exact parseEnvLine_dropCR piece
  rw [h1]
  unfold rawLines textLines
  simp only
  split
  · rename_i hlast
    have hsplit : (splitChars '\n' text.data).dropLast ++ [[]] = splitChars '\n' text.data :=
      List.dropLast_append_getLast? [] (by rw [hlast]; exact rfl)
    have h2 : (splitChars '\n' text.data).map String.mk
        = (splitChars '\n' text.data).dropLast.map String.mk ++ [""] := by
      conv_lhs => rw [← hsplit]
      rw [List.map_append]
      rfl
    rw [h2, firstDefinition_append_blank]
  · rfl

/-- The key and the value that a line defines are made of characters of the line, and the
key holds no `=`. -/
theorem DefinesOn_chars (line key value : String) (h : DefinesOn line key value) :
    (∀ c ∈ key.data, c ∈ line.data) ∧ (∀ c ∈ value.data, c ∈ line.data) ∧
    '=' ∉ key.data := by
  obtain ⟨body, k, v, _, hbranch, hbody, hnoeq, hkey, _, hvalue⟩ := h
  have hbodysub : ∀ c ∈ body.data, c ∈ line.data := by
    intro c hc
    rcases hbranch with ⟨_, hb⟩ | ⟨rest, hrest, hb⟩
    · rw [hb] at hc
      exact trimBoth_subset isSpace _ c hc
    · rw [hb] at hc
      have h1 : c ∈ rest.data := trimBoth_subset isSpace _ c hc
      have h2 : c ∈ (TrimSpace line).data := by
        rw [hrest, String.data_append]
        exact List.mem_append_right _ h1
      exact trimBoth_subset isSpace _ c h2
  have hdata : body.data = k.data ++ '=' :: v.data := by
    rw [hbody, String.data_append, String.data_append]
    simp
  refine ⟨?_, ?_, ?_⟩
  · intro c hc
    rw [hkey] at hc
    apply hbodysub
    rw [hdata]
    exact List.mem_append_left _ (trimBoth_subset isSpace _ c hc)
  · intro c hc
    rw [hvalue] at hc
    have h1 : c ∈ (TrimSpace v).data := trimBoth_subset _ _ c hc
    have h2 : c ∈ v.data := trimBoth_subset isSpace _ c h1
    apply hbodysub
    rw [hdata]
    exact List.mem_append_right _ (List.mem_cons_of_mem _ h2)
  · intro hin
    rw [hkey] at hin
    exact hnoeq (trimBoth_subset isSpace _ '=' hin)

/-- A piece of a text is made of characters of the text. -/
theorem splitChars_chars (sep : Char) (cs : List Char) :
    ∀ piece ∈ splitChars sep cs, ∀ c ∈ piece, c ∈ cs := by
  induction cs with
  | nil =>
    intro piece hp c hc
    simp [splitChars] at hp
    rw [hp] at hc
    exact hc
  | cons a t ih =>
    intro piece hp c hc
    unfold splitChars at hp
    by_cases ha : a = sep
    · rw [if_pos ha] at hp
      rcases List.mem_cons.mp hp with e | e
      · rw [e] at hc
        simp at hc
      · exact List.mem_cons_of_mem _ (ih piece e c hc)
    · rw [if_neg ha] at hp
      cases hs : splitChars sep t with
      | nil => exact absurd hs (splitChars_ne_nil sep t)
      | cons first others =>
        rw [hs] at hp ih
        simp only [List.mem_cons] at hp
        rcases hp with e | e
        · rw [e] at hc
          rcases List.mem_cons.mp hc with e2 | e2
          · rw [e2]
            exact List.mem_cons_self _ _
          · exact List.mem_cons_of_mem _ (ih first (List.mem_cons_self _ _) c e2)
        · exact List.mem_cons_of_mem _ (ih piece (List.mem_cons_of_mem _ e) c hc)

/-- In a text without a NUL character no line defines a key or a value with one. -/
theorem nul_free_of_text (text : String) (hnul : nul ∉ text.data) :
    ∀ l ∈ textLines text, ∀ k v, DefinesOn l k v → nul ∉ k.data ∧ nul ∉ v.data := by
  intro l hl k v hdef
  have hline : nul ∉ l.data := by
    unfold textLines at hl
    obtain ⟨piece, hp, rfl⟩ := List.mem_map.mp hl
    intro hin
    exact hnul (splitChars_chars '\n' text.data piece hp nul hin)
  obtain ⟨hk, hv, _⟩ := DefinesOn_chars l k v hdef
  exact ⟨fun hin => hline (hk nul hin), fun hin => hline (hv nul hin)⟩

/-- The call `os.Setenv` accepts what a line defines when neither key nor value holds a NUL
character. -/
theorem settable_of_DefinesOn (line key value : String) (h : DefinesOn line key value)
    (hk : nul ∉ key.data) (hv : nul ∉ value.data) : settable key value = true := by
  have hnoeq := (DefinesOn_chars line key value h).2.2
  obtain ⟨_, _, _, _, _, _, _, _, hne, _⟩ := h
  simp [settable, hne, hnoeq, hk, hv]

/-- C11, as the code has it (existing environment wins): for every text of the .env file,
every initial environment and every variable name, a variable that was set before the call,
also to the empty string, has its original value after `LoadEnvFile`. When moreover every line
of the text is shorter than 65536 bytes and no `KEY=VALUE` line has a NUL character in its key
or value, `LoadEnvFile` returns a nil error, a variable that was not set has the value of the
first line of the text that defines it (blank lines, `#` comments and lines without `=` define
nothing, a leading `export ` is passed over, the value is trimmed of white space and then of
quotes), and a variable that was not set and that no line defines is still not set. -/
theorem existing_environment_wins (text : String) (env : Environ) (key : String) :
    (∀ v, LookupEnv env key = some v →
      LookupEnv (LoadEnvFile (.content text) env).1 key = some v) ∧
    ((∀ l ∈ textLines text, l.utf8ByteSize < maxScanTokenSize) →
      (∀ l ∈ textLines text, ∀ k v, DefinesOn l k v → nul ∉ k.data ∧ nul ∉ v.data) →
      (LoadEnvFile (.content text) env).2 = none ∧
      (LookupEnv env key = none →
        ∀ pre line post value, textLines text = pre ++ line :: post →
          DefinesOn line key value →
          (∀ l ∈ pre, ∀ v, ¬ DefinesOn l key v) →
          LookupEnv (LoadEnvFile (.content text) env).1 key = some value) ∧
      (LookupEnv env key = none →
        (∀ l ∈ textLines text, ∀ v, ¬ DefinesOn l key v) →
        LookupEnv (LoadEnvFile (.content text) env).1 key = none)) := by
  have hload : LoadEnvFile (.content text) env
      = ((scanLines text).1.foldl loadEnvLine env, (scanLines text).2) := rfl
  refine ⟨?_, ?_⟩
  · intro v hv
    rw [hload]
    exact foldl_loadEnvLine_keep _ key v env hv
  · intro hfit hnul
    have hscan := scanLines_of_fit text hfit
    have hok : ∀ l ∈ (rawLines text).map (fun piece => String.mk (dropCR piece)),
        ∀ k v, parseEnvLine l = some (k, v) → settable k v = true := by
      intro l hl k v hp
      obtain ⟨piece, hpiece, rfl⟩ := List.mem_map.mp hl
      rw [parseEnvLine_dropCR] at hp
      have hdef := (parseEnvLine_iff _ k v).mp hp
      have hfree := hnul _ (rawLines_subset text piece hpiece) k v hdef
      exact settable_of_DefinesOn _ k v hdef hfree.1 hfree.2
    have hvalue : LookupEnv env key = none →
        LookupEnv (LoadEnvFile (.content text) env).1 key
          = firstDefinition (textLines text) key := by
      intro hunset
      rw [hload, hscan]
      show LookupEnv (((rawLines text).map fun piece => String.mk (dropCR piece)).foldl
        loadEnvLine env) key = _
      rw [foldl_loadEnvLine_unset _ key hok env hunset, firstDefinition_rawLines]
    refine ⟨?_, ?_, ?_⟩
    · rw [hload, hscan]
    · intro hunset pre line post value hsplit hline hpre
      rw [hvalue hunset, hsplit]
      exact firstDefinition_split pre line post key value ((parseEnvLine_iff _ _ _).mpr hline)
        (fun l hl v hp => hpre l hl v ((parseEnvLine_iff _ _ _).mp hp))
    · intro hunset hnone
      rw [hvalue hunset]
      exact firstDefinition_none _ key
        (fun l hl v hp => hnone l hl v ((parseEnvLine_iff _ _ _).mp hp))

/-- Witness of C11 as amended: the file and the environment of the test
`TestLoadEnvFile_LoadsValuesAndKeepsExistingEnv`. The variable `EXISTING_KEY` keeps the value
of the environment; `CLIENT_ID`, which the fourth line defines first, gets its value without
the quotes. -/
theorem existing_environment_wins_witness :
    LoadEnvFile (.content sampleEnvText) sampleEnviron =
      ([("EXISTING_KEY", "from-env"), ("AUTH_TOKEN_OLD", ""), ("AUTH_TOKEN", "token-123"),
        ("CLIENT_ID", "client-456"), ("RATE_LIMIT_REQUESTS", "250")], none) ∧
    LoadEnvFile (.content "AUTH_TOKEN_OLD=x\nA= first \r\nexport A=second\n") sampleEnviron =
      ([("EXISTING_KEY", "from-env"), ("AUTH_TOKEN_OLD", ""), ("A", "first")], none) ∧
    (∀ l ∈ textLines sampleEnvText, l.utf8ByteSize < maxScanTokenSize) ∧
    (∀ l ∈ textLines sampleEnvText, ∀ k v, DefinesOn l k v →
      nul ∉ k.data ∧ nul ∉ v.data) ∧
    LookupEnv sampleEnviron "EXISTING_KEY" = some "from-env" ∧
    LookupEnv (LoadEnvFile (.content sampleEnvText) sampleEnviron).1 "EXISTING_KEY"
      = some "from-env" ∧
    LookupEnv sampleEnviron "CLIENT_ID" = none ∧
    (LoadEnvFile (.content sampleEnvText) sampleEnviron).2 = none ∧
    LookupEnv (LoadEnvFile (.content sampleEnvText) sampleEnviron).1 "CLIENT_ID"
      = some "client-456" :=
  have hfit : ∀ l ∈ textLines sampleEnvText, l.utf8ByteSize < maxScanTokenSize := by decide
  have hnul : ∀ l ∈ textLines sampleEnvText, ∀ k v, DefinesOn l k v →
      nul ∉ k.data ∧ nul ∉ v.data := nul_free_of_text sampleEnvText (by decide)
  have hclient : DefinesOn ("CLIENT_ID=" ++ String.mk [Char.ofNat 39] ++ "client-456"
      ++ String.mk [Char.ofNat 39]) "CLIENT_ID" "client-456" :=
    ⟨"CLIENT_ID=" ++ String.mk [Char.ofNat 39] ++ "client-456" ++ String.mk [Char.ofNat 39],
      "CLIENT_ID", String.mk [Char.ofNat 39] ++ "client-456" ++ String.mk [Char.ofNat 39],
      by decide, Or.inl ⟨by decide, by decide⟩, by decide, by decide, by decide, by decide,
      by decide⟩
  have hpre : ∀ l ∈ ["", "# comment", "AUTH_TOKEN=token-123"], ∀ v,
      ¬ DefinesOn l "CLIENT_ID" v := by
    intro l hl v hdef
    have hp := (parseEnvLine_iff l "CLIENT_ID" v).mpr hdef
    simp only [List.mem_cons, List.mem_singleton, List.not_mem_nil, or_false] at hl
    rcases hl with rfl | rfl | rfl
    · have h : parseEnvLine "" = none := by decide
      rw [h] at hp
      exact absurd hp (by simp)
    · have h : parseEnvLine "# comment" = none := by decide
      rw [h] at hp
      exact absurd hp (by simp)
    · have h : parseEnvLine "AUTH_TOKEN=token-123" = some ("AUTH_TOKEN", "token-123") := by
        decide
      rw [h] at hp
      simp only [Option.some.injEq, Prod.mk.injEq] at hp
      exact absurd hp.1 (by decide)
  ⟨by decide, by decide, hfit, hnul, by decide,
    (existing_environment_wins sampleEnvText sampleEnviron "EXISTING_KEY").1 "from-env"
      (by decide),
    by decide,
    ((existing_environment_wins sampleEnvText sampleEnviron "CLIENT_ID").2 hfit hnul).1,
    ((existing_environment_wins sampleEnvText sampleEnviron "CLIENT_ID").2 hfit hnul).2.1
      (by decide) ["", "# comment", "AUTH_TOKEN=token-123"] _
      ["export RATE_LIMIT_REQUESTS=250", "EXISTING_KEY=from-file", "INVALID_LINE", ""]
      "client-456" (by decide) hclient hpre⟩

/-- A line of `n` letters `x` has `n` bytes. -/
theorem utf8ByteSize_replicate (n : Nat) :
    (String.mk (List.replicate n 'x')).utf8ByteSize = n := by
  induction n with
  | zero => rfl
  | succ m ih =>
    rw [List.replicate_succ]
    simp only [String.utf8ByteSize_mk, String.utf8Len_cons] at ih ⊢
    rw [ih]
    rfl

/-- The two lines of the file with the long line. -/
theorem textLines_longLineText : textLines longLineText = [longLine, "A=1"] := by
  have hdata : longLineText.data = List.replicate maxScanTokenSize 'x' ++ '\n' :: "A=1".data := by
    unfold longLineText longLine
    rw [String.data_append]
  have hnot : '\n' ∉ List.replicate maxScanTokenSize 'x' := by
    intro hin
    have := (List.mem_replicate.mp hin).2
    exact absurd this (by decide)
  unfold textLines
  rw [hdata, splitChars_append_sep '\n' _ hnot]
  have hrest : splitChars '\n' "A=1".data = ["A=1".data] := by decide
  rw [hrest]
  rfl

/-- The scanner gives up at the long line and delivers nothing. -/
theorem scanLines_longLineText :
    scanLines longLineText = ([], some "bufio.Scanner: token too long") := by
  have hdata : longLineText.data = List.replicate maxScanTokenSize 'x' ++ '\n' :: "A=1".data := by
    unfold longLineText longLine
    rw [String.data_append]
  have hnot : '\n' ∉ List.replicate maxScanTokenSize 'x' := by
    intro hin
    have := (List.mem_replicate.mp hin).2
    exact absurd this (by decide)
  have hrest : splitChars '\n' "A=1".data = ["A=1".data] := by decide
  have hraw : rawLines longLineText = [List.replicate maxScanTokenSize 'x', "A=1".data] := by
    unfold rawLines
    rw [hdata, splitChars_append_sep '\n' _ hnot, hrest]
    simp
  have hlong : ¬ (String.mk (List.replicate maxScanTokenSize 'x')).utf8ByteSize
      < maxScanTokenSize := by
    rw [utf8ByteSize_replicate]
    exact lt_irrefl _
  unfold scanLines
  rw [hraw]
  simp only [List.takeWhile_cons, hlong, decide_False, Bool.false_eq_true, if_false,
    List.map_nil, List.length_nil, List.length_cons]
  simp

/-- C11 as stated fails in two ways. A line that gives `A` a value with a NUL character in it
is a `KEY=VALUE` line, yet `os.Setenv` refuses the value, the error is dropped and `A` stays
unset; a later line can then set `A`, to a value that is not that of the first such line.
And when a line does not fit the buffer of the scanner (65536 bytes or more), `LoadEnvFile`
returns the error of the scanner and the lines after it, here `A=1`, are never read. -/
theorem existing_environment_wins_fails :
    (LookupEnv [] "A" = none ∧ textLines nulText = [nulText] ∧
      DefinesOn nulText "A" nulValue ∧
      LoadEnvFile (.content nulText) [] = ([], none) ∧
      LookupEnv (LoadEnvFile (.content nulText) []).1 "A" ≠ some nulValue) ∧
    (textLines (nulText ++ "\nA=z") = [nulText, "A=z"] ∧
      LoadEnvFile (.content (nulText ++ "\nA=z")) [] = ([("A", "z")], none)) ∧
    (textLines longLineText = [longLine, "A=1"] ∧
      longLine.utf8ByteSize = 65536 ∧ '=' ∉ longLine.data ∧
      DefinesOn "A=1" "A" "1" ∧
      LoadEnvFile (.content longLineText) [] = ([], some "bufio.Scanner: token too long") ∧
      LookupEnv (LoadEnvFile (.content longLineText) []).1 "A" ≠ some "1") := by
  have hload : LoadEnvFile (.content longLineText) []
      = ([], some "bufio.Scanner: token too long") := by
    show ((scanLines longLineText).1.foldl loadEnvLine [], (scanLines longLineText).2) = _
    rw [scanLines_longLineText]
    rfl
  refine ⟨⟨by decide, by decide, ?_, by decide, by decide⟩, ⟨by decide, by decide⟩,
    ⟨textLines_longLineText, utf8ByteSize_replicate _, ?_, ?_, hload, ?_⟩⟩
  · exact (parseEnvLine_iff nulText "A" nulValue).mp (by decide)
  · intro hin
    have := (List.mem_replicate.mp hin).2
    exact absurd this (by decide)
  · exact (parseEnvLine_iff "A=1" "A" "1").mp (by decide)
  · rw [hload]
    decide

end SoundCloud
